import Mathlib

/-!
Verification of the `trie_rcv` ranked-choice-voting library against its
natural-language specification.  The definitions below are a shallow
embedding of the Rust sources (`src/vote.rs`, `src/lib.rs`): hash maps
become association lists (the spec states iteration order is not
observable in results), `u64`/`u16` counters become `Nat` with explicit
range conditions where they matter, and fallible code returns an
explicit outcome type.  A failing Rust `assert!` (a panic) is modelled
as a dedicated `crash` outcome.
-/

namespace TrieRcv

/-- `SpecialVotes` from src/vote.rs: the two special ballot markers. -/
inductive SpecialVotes where
  | WITHHOLD
  | ABSTAIN
deriving DecidableEq, Repr

/-- `VoteValues` from src/vote.rs: a ballot value is a candidate id (a `u16`
in the source, modelled as `Nat` with the bound `< 65536` tracked where it
matters) or a special marker. -/
inductive VoteValues where
  | Candidate (c : Nat)
  | SpecialVote (s : SpecialVotes)
deriving DecidableEq, Repr

/-- `VoteErrors` from src/vote.rs: the ballot-construction error taxonomy. -/
inductive VoteErrors where
  | InvalidCastToCandidate
  | InvalidCastToSpecialVote
  | ReadOutOfBounds
  | NonFinalSpecialVote
  | DuplicateVotes
  | VoteIsEmpty
deriving DecidableEq, Repr

/-- `SpecialVotes::to_int` from src/vote.rs. -/
def SpecialVotes.toInt : SpecialVotes → Int
  | .WITHHOLD => -1
  | .ABSTAIN => -2

/-- `SpecialVotes::from_int` from src/vote.rs. -/
def SpecialVotes.fromInt (raw : Int) : Except VoteErrors SpecialVotes :=
  if raw = -1 then .ok .WITHHOLD
  else if raw = -2 then .ok .ABSTAIN
  else .error .InvalidCastToSpecialVote

/-- The `RankedVote` struct from src/vote.rs: ranked candidate ids plus an
optional terminal special marker. -/
structure RankedVote where
  rankings : List Nat
  special_vote : Option SpecialVotes
deriving DecidableEq, Repr

/-- Outcome of running `RankedVote::from_vector`: `ok`/`err` mirror the Rust
`Result`; `crash` marks an execution that reaches a failing `assert!`
(a Rust panic). -/
inductive ParseResult where
  | ok (v : RankedVote)
  | err (e : VoteErrors)
  | crash
deriving DecidableEq, Repr

/-- The loop of `RankedVote::from_vector` (src/vote.rs lines 133-167) over the
remaining raw values.  `cands`, `sp`, `seen` model the `candidates` vector,
`special_vote_value`, and the `unique_values` hash set.  A value is "last"
exactly when the remaining tail is empty.  `u16::try_from` succeeds on a
positive `i32` exactly when it is `≤ 65535` (failure yields
`InvalidCastToSpecialVote`, as in the source); the source then asserts
`is_positive()` on every non-negative value, so the value `0` crashes. -/
def fromVectorLoop : List Int → List Nat → Option SpecialVotes → List Int → ParseResult
  | [], cands, sp, _ =>
      if sp = none ∧ cands = [] then .err .VoteIsEmpty
      else .ok ⟨cands, sp⟩
  | v :: rest, cands, sp, seen =>
      if v ∈ seen then .err .DuplicateVotes
      else if v < 0 then
        if rest ≠ [] then .err .NonFinalSpecialVote
        else
          match SpecialVotes.fromInt v with
          | .error e => .err e
          | .ok s => fromVectorLoop rest cands (some s) (v :: seen)
      else if 0 < v then
        if v ≤ 65535 then fromVectorLoop rest (cands ++ [v.toNat]) sp (v :: seen)
        else .err .InvalidCastToSpecialVote
      else .crash

/-- `RankedVote::from_vector` from src/vote.rs (lines 125-177). -/
def RankedVote.fromVector (raw : List Int) : ParseResult :=
  fromVectorLoop raw [] none []

/-- `RankedVote::to_vector` from src/vote.rs (lines 179-188). -/
def RankedVote.toVector (rv : RankedVote) : List Int :=
  rv.rankings.map (fun c => (c : Int)) ++
    (match rv.special_vote with
     | none => []
     | some s => [s.toInt])

/-- The iteration order of `RankedVote::iter` (src/vote.rs lines 196-227):
first the ranked candidates, then the special marker if any. -/
def RankedVote.toValues (rv : RankedVote) : List VoteValues :=
  rv.rankings.map VoteValues.Candidate ++
    (match rv.special_vote with
     | none => []
     | some s => [VoteValues.SpecialVote s])

/-- Decidable check of the raw-ballot shape "negative values may appear only
in the last position, and must be -1 or -2". -/
def negOk : List Int → Bool
  | [] => true
  | [x] => decide (0 ≤ x) || decide (x = -1) || decide (x = -2)
  | x :: y :: rest => decide (0 ≤ x) && negOk (y :: rest)

/-- The construction invariants on a raw ballot as stated by the spec (§3,
§4.1, §6): non-empty, no repeated value, negative values only `-1`/`-2` and
only terminal, candidate ids within the `u16` candidate-id range. -/
def ballotInvariants (v : List Int) : Bool :=
  decide (v ≠ []) && decide v.Nodup && negOk v && v.all (fun x => x ≤ 65535)

/-- The construction invariants strengthened with "candidate ids are
positive" (excluding the id `0`, which the source crashes on). -/
def ballotInvariantsPos (v : List Int) : Bool :=
  ballotInvariants v && v.all (fun x => x ≠ 0)

/-- Whether `to_vector ∘ from_vector` reproduces a raw ballot. -/
def roundTrips (v : List Int) : Bool :=
  match RankedVote.fromVector v with
  | .ok rv => decide (rv.toVector = v)
  | _ => false

/-- The positive entries of a raw ballot, as candidate ids. -/
def posNats (v : List Int) : List Nat :=
  v.filterMap (fun x => if 0 < x then some x.toNat else none)

/-- The trailing special marker of a raw ballot, if any. -/
def trailSp (v : List Int) : Option SpecialVotes :=
  match v.getLast? with
  | some x => if x = -1 then some .WITHHOLD else if x = -2 then some .ABSTAIN else none
  | none => none

/-- The final emptiness check of `from_vector` (src/vote.rs lines 169-176). -/
def finalCheck (cands : List Nat) (sp : Option SpecialVotes) : ParseResult :=
  if sp = none ∧ cands = [] then .err .VoteIsEmpty
  else .ok ⟨cands, sp⟩

/-- `TrieNode` from src/lib.rs lines 19-22: children keyed by ballot value
plus the votes-through counter.  The source `HashMap` is modelled as an
association list in insertion order; the spec (§5) states iteration order
is not observable in results. -/
inductive TrieNode where
  | mk (children : List (VoteValues × TrieNode)) (num_votes : Nat)

def TrieNode.children : TrieNode → List (VoteValues × TrieNode)
  | .mk cs _ => cs

def TrieNode.num_votes : TrieNode → Nat
  | .mk _ n => n

/-- The root counter increment of `insert_vote` (src/lib.rs line 207) and the
per-child increment (line 225). -/
def TrieNode.bump : TrieNode → TrieNode
  | .mk cs n => .mk cs (n + 1)

/-- Generic association-list lookup, modelling `HashMap::get`. -/
def lookupA {α β : Type} [DecidableEq α] (k : α) : List (α × β) → Option β
  | [] => none
  | (k2, b) :: rest => if k2 = k then some b else lookupA k rest

/-- Generic association-list removal, modelling `HashMap::remove`. -/
def removeA {α β : Type} [DecidableEq α] (k : α) : List (α × β) → List (α × β)
  | [] => []
  | (k2, b) :: rest => if k2 = k then rest else (k2, b) :: removeA k rest

/-- `search_child` from src/lib.rs lines 42-48. -/
def TrieNode.searchChild (t : TrieNode) (v : VoteValues) : Option TrieNode :=
  lookupA v t.children

/-- `search_or_create_child` (src/lib.rs lines 36-40), with the action `f`
applied to the found-or-created child: update the matching child in place,
or append a fresh default child. -/
def updateChildWith (v : VoteValues) (f : TrieNode → TrieNode) :
    List (VoteValues × TrieNode) → List (VoteValues × TrieNode)
  | [] => [(v, f (TrieNode.mk [] 0))]
  | (k, n) :: cs =>
      if k = v then (k, f n) :: cs
      else (k, n) :: updateChildWith v f cs

/-- The walk of `insert_vote` (src/lib.rs lines 206-228) below the current
node: for each remaining ballot value, `search_or_create_child`, increment
the child's counter, and continue in the child. -/
def insertValues : List VoteValues → TrieNode → TrieNode
  | [], n => n
  | v :: rest, .mk cs cnt =>
      .mk (updateChildWith v (fun child => insertValues rest child.bump) cs) cnt

/-- `insert_vote` from src/lib.rs lines 206-228 (the Dowdall score map and
unique-candidate set updates are tracked separately; the trie part is here). -/
def insertVote (t : TrieNode) (rv : RankedVote) : TrieNode :=
  insertValues rv.toValues t.bump

/-- `insert_votes` from src/lib.rs lines 200-204. -/
def insertVotes (t : TrieNode) (votes : List RankedVote) : TrieNode :=
  votes.foldl insertVote t

mutual

/-- Number of nodes of a trie; used to bound the number of elimination
rounds (each round replaces eliminated frontier nodes by strictly deeper
ones). -/
def TrieNode.size : TrieNode → Nat
  | .mk cs _ => 1 + sizeChildren cs

def sizeChildren : List (VoteValues × TrieNode) → Nat
  | [] => 0
  | (_, n) :: cs => n.size + sizeChildren cs

end

/-- `HashSet::insert` on a list kept duplicate-free. -/
def insertSet (n : Nat) (s : List Nat) : List Nat :=
  if n ∈ s then s else s ++ [n]

mutual

/-- The candidate labels occurring in a trie, in traversal order; for a trie
built by `insert_vote` this is the engine's `unique_candidates` set
(src/lib.rs line 216 inserts every candidate encountered). -/
def collectCandidates : TrieNode → List Nat → List Nat
  | .mk cs _, acc => collectCandsChildren cs acc

def collectCandsChildren : List (VoteValues × TrieNode) → List Nat → List Nat
  | [], acc => acc
  | (vv, n) :: cs, acc =>
      collectCandsChildren cs
        (collectCandidates n
          (match vv with
           | .Candidate c => insertSet c acc
           | .SpecialVote _ => acc))

end

/-- The `ranked_pairs_map`: ordered candidate pair to pairwise vote count
(`HashMap<(u32, u32), u64>` as an association list). -/
def PairsMap : Type := List ((Nat × Nat) × Nat)

/-- `ranked_pairs_map.entry(pair).or_insert(0) += votes` (src/lib.rs
lines 513-516 and 538-542). -/
def pmAdd (key : Nat × Nat) (k : Nat) : PairsMap → PairsMap
  | [] => [(key, 0 + k)]
  | (key2, n) :: rest =>
      if key2 = key then (key2, n + k) :: rest
      else (key2, n) :: pmAdd key k rest

/-- `.get(&pair).unwrap_or(&0)` on the pairs map (src/lib.rs lines 347-352). -/
def pmGet (pm : PairsMap) (key : Nat × Nat) : Nat :=
  (lookupA key pm).getD 0

/-- Sum of the children's `num_votes`; `build_ranked_pairs_map` subtracts
these from the node's counter to obtain the votes terminating at the node
(src/lib.rs lines 499-505; the `assert!(terminating_votes >= child.num_votes)`
holds on tries produced by `insert_vote`, where a parent's counter bounds the
sum of its children's counters). -/
def sumNums (cs : List (VoteValues × TrieNode)) : Nat :=
  (cs.map (fun p => p.2.num_votes)).sum

mutual

/-- `build_ranked_pairs_map` from src/lib.rs lines 488-545. -/
def buildRankedPairsMap : TrieNode → List Nat → PairsMap → List Nat → PairsMap
  | .mk cs num, path, pm, uniq =>
      let pm2 := buildPairsChildren cs path pm uniq
      let terminating := num - sumNums cs
      if 0 < terminating then
        (path.flatMap (fun p =>
            (uniq.filter (fun u => decide (u ∉ path))).map (fun u => (p, u)))).foldl
          (fun pm pr => pmAdd pr terminating pm) pm2
      else pm2

def buildPairsChildren : List (VoteValues × TrieNode) → List Nat → PairsMap → List Nat → PairsMap
  | [], _, pm, _ => pm
  | (vv, child) :: cs, path, pm, uniq =>
      match vv with
      | .SpecialVote _ => buildPairsChildren cs path pm uniq
      | .Candidate cand =>
          let pm1 := path.foldl (fun pm p => pmAdd (p, cand) child.num_votes pm) pm
          let pm2 := buildRankedPairsMap child (path ++ [cand]) pm1 uniq
          buildPairsChildren cs path pm2 uniq

end

/-- The preference digraph built by `find_ranked_pairs_weakest`
(src/lib.rs lines 336-423): node labels in creation order and directed
weighted edges, modelling the petgraph `DiGraph<u32, u64>`. -/
structure PrefGraph where
  nodes : List Nat
  edges : List (Nat × Nat × Nat)

/-- `get_or_create_node` (src/lib.rs lines 378-395): a node is added only
if its candidate is not present yet. -/
def addNodeG (ns : List Nat) (c : Nat) : List Nat :=
  if c ∈ ns then ns else ns ++ [c]

/-- `graph.contains_edge` (src/lib.rs line 419). -/
def hasEdge (es : List (Nat × Nat × Nat)) (a b : Nat) : Bool :=
  es.any (fun e => decide (e.1 = a) && decide (e.2.1 = b))

/-- The `iproduct!(&candidates, &candidates)` pair order (src/lib.rs
line 403): first component outermost. -/
def prefPairs (cands : List Nat) : List (Nat × Nat) :=
  cands.flatMap (fun a => cands.map (fun b => (a, b)))

/-- The edge-construction loop of `find_ranked_pairs_weakest` (src/lib.rs
lines 403-423): for each ordered pair with a strictly positive net
preference, add one edge weighted by the net strength. -/
def mkGraphStep (pm : PairsMap) (es : List (Nat × Nat × Nat)) (p : Nat × Nat) :
    List (Nat × Nat × Nat) :=
  if p.1 = p.2 then es
  else
    if pmGet pm (p.2, p.1) < pmGet pm (p.1, p.2) then
      if hasEdge es p.1 p.2 then es
      else es ++ [(p.1, p.2, pmGet pm (p.1, p.2) - pmGet pm (p.2, p.1))]
    else es

def mkGraphEdges (cands : List Nat) (pm : PairsMap) : List (Nat × Nat × Nat) :=
  (prefPairs cands).foldl (mkGraphStep pm) []

/-- The graph assembled by `find_ranked_pairs_weakest` before the
acyclicity and connectedness checks. -/
def mkGraph (cands : List Nat) (pm : PairsMap) : PrefGraph :=
  ⟨cands.foldl addNodeG [], mkGraphEdges cands pm⟩

/-- Targets of outgoing edges of a node (`edges_directed(.., Outgoing)`,
src/lib.rs lines 106-109). -/
def outNeighbors (g : PrefGraph) (n : Nat) : List Nat :=
  g.edges.filterMap (fun e => if e.1 = n then some e.2.1 else none)

/-- Sources of incoming edges of a node (`neighbors_directed(.., Incoming)`). -/
def inNeighbors (g : PrefGraph) (n : Nat) : List Nat :=
  g.edges.filterMap (fun e => if e.2.1 = n then some e.1 else none)

/-- The `for neighbor in directed_neighbors` loop inside `dfs_find_cycle`
(src/lib.rs lines 111-118), generic in the recursive descent `rec` (the
call `dfs_find_cycle(neighbor, path ++ [neighbor], ..)`). -/
def dfsNeighborsGen (rec : Nat → List Nat → List Nat → Bool × List Nat) :
    List Nat → List Nat → List Nat → Bool × List Nat
  | [], _, explored => (false, explored)
  | nb :: rest, path, explored =>
      if nb ∈ path then (true, explored)
      else
        let r := rec nb (path ++ [nb]) explored
        if r.1 then r
        else dfsNeighborsGen rec rest path r.2

/-- `dfs_find_cycle` from src/lib.rs lines 97-121.  The Rust recursion
carries no fuel; its depth is bounded because `path` stays duplicate-free,
so `is_graph_acyclic` supplies fuel `nodes.length + 1`, which is never
exhausted on its actual calls.  Returns the cycle flag and the explored
set accumulated through `explored.insert`. -/
def dfsFindCycle (g : PrefGraph) : Nat → Nat → List Nat → List Nat → Bool × List Nat
  | 0, _, _, explored => (true, explored)
  | fuel + 1, node, path, explored =>
      dfsNeighborsGen (dfsFindCycle g fuel) (outNeighbors g node) path
        (insertSet node explored)

/-- The outer loop of `is_graph_acyclic` (src/lib.rs lines 123-132):
start a DFS from every node not yet explored by an earlier DFS. -/
def acyclicLoop (g : PrefGraph) : List Nat → List Nat → Bool
  | [], _ => true
  | n :: rest, allExplored =>
      if n ∈ allExplored then acyclicLoop g rest allExplored
      else
        let r := dfsFindCycle g (g.nodes.length + 1) n [] []
        if r.1 then false
        else acyclicLoop g rest (r.2.foldl (fun s m => insertSet m s) allExplored)

/-- `is_graph_acyclic` from src/lib.rs lines 88-135. -/
def isGraphAcyclic (g : PrefGraph) : Bool :=
  if g.nodes.isEmpty then true
  else acyclicLoop g g.nodes []

/-- `get_undirected_neighbors` from src/lib.rs lines 149-154: incoming
neighbors first, then outgoing. -/
def undirNeighbors (g : PrefGraph) (n : Nat) : List Nat :=
  inNeighbors g n ++ outNeighbors g n

/-- The worklist loop of `is_graph_weakly_connected` (src/lib.rs
lines 157-171).  The `VecDeque` only ever sees `push_back`/`pop_back`, i.e.
it is a stack; the head of the list models the back.  The Rust loop carries
no fuel; each iteration either shrinks the stack or enlarges the explored
set, so the fuel supplied by `isGraphWeaklyConnected` is never exhausted. -/
def wcLoop (g : PrefGraph) : Nat → List Nat → List Nat → List Nat
  | 0, _, explored => explored
  | fuel + 1, stack, explored =>
      match stack with
      | [] => explored
      | n :: rest =>
          if n ∈ explored then wcLoop g fuel rest explored
          else wcLoop g fuel ((undirNeighbors g n).reverse ++ rest) (explored ++ [n])

/-- Fuel bound for `wcLoop`: pops of explored nodes are bounded by pushes,
pushes by one plus (number of first-time pops) times the largest possible
neighbor list. -/
def wcFuel (g : PrefGraph) : Nat :=
  (g.nodes.length + 1) * (2 * g.edges.length + 2) + 1

/-- `is_graph_weakly_connected` from src/lib.rs lines 137-174. -/
def isGraphWeaklyConnected (g : PrefGraph) : Bool :=
  match g.nodes with
  | [] => true
  | n0 :: _ => decide ((wcLoop g (wcFuel g) [n0] []).length = g.nodes.length)

/-- `find_ranked_pairs_weakest` from src/lib.rs lines 326-450. -/
def findRankedPairsWeakest (cands : List Nat) (pm : PairsMap) : List Nat × Bool :=
  let g := mkGraph cands pm
  if !(isGraphAcyclic g && isGraphWeaklyConnected g) then (cands, false)
  else (g.nodes.filter (fun n => (outNeighbors g n).isEmpty), true)

/-- The tail of `find_condorcet_ranked_pairs_weakest` after the threshold
is fixed (src/lib.rs lines 306-323): filter the candidates at or below the
threshold, run the pairwise analysis, and fall back to the minimum-count
candidates when it is not decisive. -/
def condorcetWith (votes : List (Nat × Nat)) (pm : PairsMap)
    (lowest : List Nat) (t : Nat) : List Nat :=
  let weak := (votes.filter (fun p => decide (p.2 ≤ t))).map (fun p => p.1)
  let pr := findRankedPairsWeakest weak pm
  if pr.2 = false then lowest else pr.1

/-- `find_condorcet_ranked_pairs_weakest` from src/lib.rs lines 282-324:
the threshold is entry 1 of the sorted list of all vote counts (the
second-smallest counted with multiplicity), or entry 0 for a single
candidate, or the empty result for an empty map. -/
def findCondorcetRankedPairsWeakest (votes : List (Nat × Nat)) (pm : PairsMap)
    (lowest : List Nat) : List Nat :=
  let sorted := List.insertionSort (· ≤ ·) (votes.map (fun p => p.2))
  match sorted.get? 1 with
  | some t => condorcetWith votes pm lowest t
  | none =>
      match sorted.get? 0 with
      | some t => condorcetWith votes pm lowest t
      | none => []

/-- `EliminationStrategies` from src/lib.rs lines 72-86. -/
inductive EliminationStrategies where
  | EliminateAll
  | DowdallScoring
  | RankedPairs
  | CondorcetRankedPairs
deriving DecidableEq, Repr

/-- `VoteTransferChanges` from src/lib.rs lines 64-68: transfer targets are
`(next candidate, next node, num votes to transfer)`. -/
structure VoteTransferChanges where
  withhold_votes : Nat
  abstain_votes : Nat
  vote_transfers : List (Nat × TrieNode × Nat)

/-- One step of the child loop of `transfer_next_votes`
(src/lib.rs lines 258-277). -/
def transferStep (acc : VoteTransferChanges) (p : VoteValues × TrieNode) :
    VoteTransferChanges :=
  match p.1 with
  | .SpecialVote .WITHHOLD => { acc with withhold_votes := acc.withhold_votes + 1 }
  | .SpecialVote .ABSTAIN => { acc with abstain_votes := acc.abstain_votes + 1 }
  | .Candidate c =>
      { acc with vote_transfers := acc.vote_transfers ++ [(c, p.2, p.2.num_votes)] }

/-- `transfer_next_votes` from src/lib.rs lines 251-280.  Note: a special
child contributes `1` per child node (lines 263 and 266), not its
`num_votes`; a candidate child contributes a pending transfer carrying the
child's `num_votes`. -/
def transferNextVotes (node : TrieNode) : VoteTransferChanges :=
  node.children.foldl transferStep ⟨0, 0, []⟩

/-- The round-local state of `determine_winner` (src/lib.rs lines 549-555):
vote counts and frontier nodes per surviving candidate, plus the two
running totals. -/
structure RoundState where
  candidate_vote_counts : List (Nat × Nat)
  frontier_nodes : List (Nat × List TrieNode)
  effective_total_votes : Nat
  total_candidate_votes : Nat

/-- One step of the initialization loop of `determine_winner`
(src/lib.rs lines 560-573). -/
def initStep (s : RoundState) (p : VoteValues × TrieNode) : RoundState :=
  match p.1 with
  | .SpecialVote .ABSTAIN => s
  | .SpecialVote .WITHHOLD =>
      { s with effective_total_votes := s.effective_total_votes + p.2.num_votes }
  | .Candidate c =>
      { candidate_vote_counts := s.candidate_vote_counts ++ [(c, p.2.num_votes)],
        frontier_nodes := s.frontier_nodes ++ [(c, [p.2])],
        effective_total_votes := s.effective_total_votes + p.2.num_votes,
        total_candidate_votes := s.total_candidate_votes + p.2.num_votes }

/-- The initialization loop of `determine_winner` over the root's children
(src/lib.rs lines 557-573). -/
def initRound (root : TrieNode) : RoundState :=
  root.children.foldl initStep ⟨[], [], 0, 0⟩

/-- Whether a ballot value is a candidate label. -/
def isCandidateVV : VoteValues → Bool
  | .Candidate _ => true
  | .SpecialVote _ => false

/-- The majority scan of src/lib.rs lines 595-601: return the first
candidate holding strictly more than half the effective total.  (The
interleaved minimum tracking is modelled separately by `minVotes`; the scan
only returns early on a majority, so the two are independent.) -/
def findMajority (eff : Nat) : List (Nat × Nat) → Option Nat
  | [] => none
  | (c, n) :: rest => if eff / 2 < n then some c else findMajority eff rest

/-- `u64::MAX`, the initial value of `min_candidate_votes`
(src/lib.rs line 588). -/
def U64MAX : Nat := 2 ^ 64 - 1

/-- The minimum-tracking part of the scan (src/lib.rs line 596). -/
def minVotes (votes : List (Nat × Nat)) : Nat :=
  votes.foldl (fun m p => min m p.2) U64MAX

/-- `lowest_vote_candidates` (src/lib.rs lines 604-609). -/
def roundLowest (votes : List (Nat × Nat)) : List Nat :=
  (votes.filter (fun p => decide (p.2 = minVotes votes))).map (fun p => p.1)

/-- The strategy dispatch of src/lib.rs lines 613-631.  The Dowdall branch
calls `find_dowdall_weakest`, whose `f32` score arithmetic is not faithfully
representable; it is abstracted as the function argument `dowdallFn` (the
source guarantees it returns a sublist of its input: it pushes a subset of
the candidates given, in order). -/
def selectWeakest (strat : EliminationStrategies) (dowdallFn : List Nat → List Nat)
    (pm : PairsMap) (votes : List (Nat × Nat)) (lowest : List Nat) : List Nat :=
  match strat with
  | .EliminateAll => lowest
  | .DowdallScoring => dowdallFn lowest
  | .RankedPairs => (findRankedPairsWeakest lowest pm).1
  | .CondorcetRankedPairs => findCondorcetRankedPairsWeakest votes pm lowest

/-- Accumulation of one node's transfer result into the round totals
(src/lib.rs lines 643-646). -/
def combineChanges (a b : VoteTransferChanges) : VoteTransferChanges :=
  ⟨a.withhold_votes + b.withhold_votes, a.abstain_votes + b.abstain_votes,
   a.vote_transfers ++ b.vote_transfers⟩

/-- The accumulation over one candidate's frontier nodes inside the
elimination loop (src/lib.rs lines 642-647). -/
def accTransfers (acc : VoteTransferChanges) (nodes : List TrieNode) :
    VoteTransferChanges :=
  nodes.foldl (fun a node => combineChanges a (transferNextVotes node)) acc

/-- The elimination loop of src/lib.rs lines 638-651: for each weakest
candidate, collect the transfers of all its frontier nodes, then remove it
from the vote-count and frontier maps.  (The source `.expect`s a frontier
entry for every weakest candidate — guaranteed by the loop invariant that
the two maps have the same keys; a missing entry is modelled as an empty
node list.) -/
def eliminateLoop : List Nat → VoteTransferChanges → List (Nat × Nat) →
    List (Nat × List TrieNode) →
    VoteTransferChanges × List (Nat × Nat) × List (Nat × List TrieNode)
  | [], acc, votes, frontier => (acc, votes, frontier)
  | w :: ws, acc, votes, frontier =>
      eliminateLoop ws (accTransfers acc ((lookupA w frontier).getD []))
        (removeA w votes) (removeA w frontier)

/-- `candidate_vote_counts.entry(c).or_insert(0) += k`
(src/lib.rs lines 664-669). -/
def addVotesA (k : Nat) (amt : Nat) : List (Nat × Nat) → List (Nat × Nat)
  | [] => [(k, 0 + amt)]
  | (k2, n) :: rest =>
      if k2 = k then (k2, n + amt) :: rest
      else (k2, n) :: addVotesA k amt rest

/-- `frontier_nodes.entry(c).or_default().push(node)`
(src/lib.rs lines 666-670). -/
def pushNodeA (k : Nat) (node : TrieNode) : List (Nat × List TrieNode) →
    List (Nat × List TrieNode)
  | [] => [(k, [node])]
  | (k2, ns) :: rest =>
      if k2 = k then (k2, ns ++ [node]) :: rest
      else (k2, ns) :: pushNodeA k node rest

/-- The transfer-application loop of src/lib.rs lines 659-671.  (The
source asserts `vote_allocation > 0`; on tries built by `insert_vote`
every node's counter is positive, so the assertion holds there.) -/
def applyTransfers (transfers : List (Nat × TrieNode × Nat))
    (votes : List (Nat × Nat)) (frontier : List (Nat × List TrieNode)) :
    List (Nat × Nat) × List (Nat × List TrieNode) :=
  transfers.foldl
    (fun vf tr => (addVotesA tr.1 tr.2.2 vf.1, pushNodeA tr.1 tr.2.1 vf.2))
    (votes, frontier)

/-- The weakest set selected in a round. -/
def roundWeakest (strat : EliminationStrategies) (dowdallFn : List Nat → List Nat)
    (pm : PairsMap) (s : RoundState) : List Nat :=
  selectWeakest strat dowdallFn pm s.candidate_vote_counts
    (roundLowest s.candidate_vote_counts)

/-- The transfer changes and post-elimination maps of a round. -/
def roundElim (strat : EliminationStrategies) (dowdallFn : List Nat → List Nat)
    (pm : PairsMap) (s : RoundState) :
    VoteTransferChanges × List (Nat × Nat) × List (Nat × List TrieNode) :=
  eliminateLoop (roundWeakest strat dowdallFn pm s) ⟨0, 0, []⟩
    s.candidate_vote_counts s.frontier_nodes

/-- Result of one iteration of the `while` loop of `determine_winner`. -/
inductive StepResult where
  | winner (c : Nat)
  | noWinner
  | next (s : RoundState)

/-- One iteration of the `while` body of `determine_winner` (src/lib.rs
lines 587-671), on a state with a non-empty vote map: the
impossible-majority early return (line 591), the majority scan (lines
595-601), weakest-set selection (lines 604-631), elimination and transfer
collection (lines 638-651), the no-progress return (line 654), the total
updates (lines 655-656; `u64` subtraction, which cannot underflow on
reachable states, is modelled by truncated `Nat` subtraction), and the
transfer application (lines 659-671). -/
def roundStep (strat : EliminationStrategies) (dowdallFn : List Nat → List Nat)
    (pm : PairsMap) (s : RoundState) : StepResult :=
  if s.total_candidate_votes ≤ s.effective_total_votes / 2 then .noWinner
  else
    match findMajority s.effective_total_votes s.candidate_vote_counts with
    | some c => .winner c
    | none =>
        let r := roundElim strat dowdallFn pm s
        if r.1.vote_transfers.isEmpty then .noWinner
        else
          let vf := applyTransfers r.1.vote_transfers r.2.1 r.2.2
          .next
            { candidate_vote_counts := vf.1,
              frontier_nodes := vf.2,
              effective_total_votes := s.effective_total_votes - r.1.abstain_votes,
              total_candidate_votes :=
                s.total_candidate_votes - (r.1.abstain_votes + r.1.withhold_votes) }

/-- The `while !candidate_vote_counts.is_empty()` loop of `determine_winner`
(src/lib.rs lines 587-674), with explicit fuel: `none` means the fuel ran
out (never the case for the fuel chosen by `determineWinner`), `some r`
that the Rust loop returned `r`. -/
def winnerLoop (strat : EliminationStrategies) (dowdallFn : List Nat → List Nat)
    (pm : PairsMap) : Nat → RoundState → Option (Option Nat)
  | 0, _ => none
  | fuel + 1, s =>
      if s.candidate_vote_counts.isEmpty then some none
      else
        match roundStep strat dowdallFn pm s with
        | .winner c => some (some c)
        | .noWinner => some none
        | .next s2 => winnerLoop strat dowdallFn pm fuel s2

/-- `determine_winner` from src/lib.rs lines 547-675.  The ranked-pairs map
is built once when the strategy needs it (lines 575-585).  The Rust `while`
loop carries no fuel; every round strictly shrinks the combined size of the
frontier sub-tries, so `size + 1` rounds always suffice, and the
out-of-fuel default (unreachable on actual runs) is `none`. -/
def determineWinner (root : TrieNode) (strat : EliminationStrategies)
    (dowdallFn : List Nat → List Nat) : Option Nat :=
  let pm :=
    if strat = .RankedPairs ∨ strat = .CondorcetRankedPairs then
      buildRankedPairsMap root [] [] (collectCandidates root [])
    else []
  (winnerLoop strat dowdallFn pm (root.size + 1) (initRound root)).getD none

/-- Modelled from the spec (§4.6 step 5), for comparison with
`transferNextVotes`: a `Special(Withhold)` child contributes
`child.num_votes` to `new_withhold` and a `Special(Abstain)` child
contributes `child.num_votes` to `new_abstain` (where the source adds `1`
per special child). -/
def transferNextVotesSpec (node : TrieNode) : VoteTransferChanges :=
  node.children.foldl
    (fun acc p =>
      match p.1 with
      | .SpecialVote .WITHHOLD =>
          { acc with withhold_votes := acc.withhold_votes + p.2.num_votes }
      | .SpecialVote .ABSTAIN =>
          { acc with abstain_votes := acc.abstain_votes + p.2.num_votes }
      | .Candidate c =>
          { acc with vote_transfers := acc.vote_transfers ++ [(c, p.2, p.2.num_votes)] })
    ⟨0, 0, []⟩

/-- The elimination loop with the spec's accounting of special children. -/
def eliminateLoopSpec : List Nat → VoteTransferChanges → List (Nat × Nat) →
    List (Nat × List TrieNode) →
    VoteTransferChanges × List (Nat × Nat) × List (Nat × List TrieNode)
  | [], acc, votes, frontier => (acc, votes, frontier)
  | w :: ws, acc, votes, frontier =>
      let nodes := (lookupA w frontier).getD []
      let acc2 := nodes.foldl (fun a node => combineChanges a (transferNextVotesSpec node)) acc
      eliminateLoopSpec ws acc2 (removeA w votes) (removeA w frontier)

/-- One round with the spec's accounting of special children. -/
def roundStepSpec (strat : EliminationStrategies) (dowdallFn : List Nat → List Nat)
    (pm : PairsMap) (s : RoundState) : StepResult :=
  if s.total_candidate_votes ≤ s.effective_total_votes / 2 then .noWinner
  else
    match findMajority s.effective_total_votes s.candidate_vote_counts with
    | some c => .winner c
    | none =>
        let r := eliminateLoopSpec
          (selectWeakest strat dowdallFn pm s.candidate_vote_counts
            (roundLowest s.candidate_vote_counts))
          ⟨0, 0, []⟩ s.candidate_vote_counts s.frontier_nodes
        if r.1.vote_transfers.isEmpty then .noWinner
        else
          let vf := applyTransfers r.1.vote_transfers r.2.1 r.2.2
          .next
            { candidate_vote_counts := vf.1,
              frontier_nodes := vf.2,
              effective_total_votes := s.effective_total_votes - r.1.abstain_votes,
              total_candidate_votes :=
                s.total_candidate_votes - (r.1.abstain_votes + r.1.withhold_votes) }

/-- The round loop with the spec's accounting of special children. -/
def winnerLoopSpec (strat : EliminationStrategies) (dowdallFn : List Nat → List Nat)
    (pm : PairsMap) : Nat → RoundState → Option (Option Nat)
  | 0, _ => none
  | fuel + 1, s =>
      if s.candidate_vote_counts.isEmpty then some none
      else
        match roundStepSpec strat dowdallFn pm s with
        | .winner c => some (some c)
        | .noWinner => some none
        | .next s2 => winnerLoopSpec strat dowdallFn pm fuel s2

/-- `determine_winner` with the spec's accounting of special children
(spec §4.6 steps 5 and 7). -/
def determineWinnerSpec (root : TrieNode) (strat : EliminationStrategies)
    (dowdallFn : List Nat → List Nat) : Option Nat :=
  let pm :=
    if strat = .RankedPairs ∨ strat = .CondorcetRankedPairs then
      buildRankedPairsMap root [] [] (collectCandidates root [])
    else []
  (winnerLoopSpec strat dowdallFn pm (root.size + 1) (initRound root)).getD none

/-- The empty engine (a fresh `RankedChoiceVoteTrie`). -/
def emptyTrie : TrieNode := TrieNode.mk [] 0

/-- Ballots `[1,-2], [1,-2], [1,2], [2]x4, [3]x4`: candidate 1's abstain
child carries two ballots, exposing the off-by-`num_votes` accounting of
`transfer_next_votes`. -/
def exTrieC1 : TrieNode :=
  insertVotes emptyTrie
    [⟨[1], some .ABSTAIN⟩, ⟨[1], some .ABSTAIN⟩, ⟨[1, 2], none⟩,
     ⟨[2], none⟩, ⟨[2], none⟩, ⟨[2], none⟩, ⟨[2], none⟩,
     ⟨[3], none⟩, ⟨[3], none⟩, ⟨[3], none⟩, ⟨[3], none⟩]

/-- Ballots `[1,2]` and `[2,1]` (the spec's scenario 3): both candidates
tie at the minimum and are eliminated in the same round. -/
def exTrieC2 : TrieNode :=
  insertVotes emptyTrie [⟨[1, 2], none⟩, ⟨[2, 1], none⟩]

/-- The next-round state of a step result, if any. -/
def stepNextState : StepResult → Option RoundState
  | .next s => some s
  | _ => none

/-- Ballots `[1], [2], [2], [3], [3]`: the unique weakest candidate 1 has no
further preference, so its elimination produces no transfers while
candidates 2 and 3 remain. -/
def exTrieC8 : TrieNode :=
  insertVotes emptyTrie
    [⟨[1], none⟩, ⟨[2], none⟩, ⟨[2], none⟩, ⟨[3], none⟩, ⟨[3], none⟩]

/-- Ballots `[1], [1], [2]`: candidate 1 holds a strict majority of the
effective total in the first round. -/
def exTrieC6 : TrieNode :=
  insertVotes emptyTrie [⟨[1], none⟩, ⟨[1], none⟩, ⟨[2], none⟩]

mutual

/-- Well-formedness of a trie, as established by `insert_vote`: every node's
counter dominates the sum of its children's counters (the spec §3 invariant
and the assertion of src/lib.rs line 504), children keys are distinct (a
`HashMap` property), and every non-root node carries at least one vote. -/
def TrieNode.wfb : TrieNode → Bool
  | .mk cs n => decide (sumNums cs ≤ n) && decide ((cs.map Prod.fst).Nodup) && wfbChildren cs

def wfbChildren : List (VoteValues × TrieNode) → Bool
  | [] => true
  | (_, c) :: cs => decide (1 ≤ c.num_votes) && TrieNode.wfb c && wfbChildren cs

end

/-- The keys of an association list. -/
def keysOf {β : Type} (l : List (Nat × β)) : List Nat := l.map Prod.fst

/-- The total number of votes recorded in a candidate vote-count map. -/
def votesSum (l : List (Nat × Nat)) : Nat := (l.map Prod.snd).sum

/-- The total `num_votes` of a list of frontier nodes. -/
def sumNodes (ns : List TrieNode) : Nat := (ns.map TrieNode.num_votes).sum

/-- The total number of votes carried by pending transfers. -/
def transfersSum (l : List (Nat × TrieNode × Nat)) : Nat :=
  (l.map (fun tr => tr.2.2)).sum

/-- The "vote mass" of a changes record: votes pending in transfers plus
votes dropped into withhold or abstain. -/
def changesMass (a : VoteTransferChanges) : Nat :=
  transfersSum a.vote_transfers + a.withhold_votes + a.abstain_votes

/-- The per-child contribution of `transfer_next_votes` to the vote mass:
the child's `num_votes` for a candidate child, `1` for a special child. -/
def childMass (p : VoteValues × TrieNode) : Nat :=
  match p.1 with
  | .Candidate _ => p.2.num_votes
  | .SpecialVote _ => 1

/-- The invariant tying the vote-count map to the frontier map inside the
round loop of `determine_winner`: duplicate-free keys, equal domains, each
candidate's count equal to the total `num_votes` of its frontier nodes, and
every frontier node well-formed. -/
structure MapsInv (votes : List (Nat × Nat)) (frontier : List (Nat × List TrieNode)) :
    Prop where
  nodupV : (keysOf votes).Nodup
  nodupF : (keysOf frontier).Nodup
  same : ∀ c : Nat, (lookupA c votes).isSome = (lookupA c frontier).isSome
  link : ∀ c ns, lookupA c frontier = some ns → lookupA c votes = some (sumNodes ns)
  wfF : ∀ c ns, lookupA c frontier = some ns → ∀ n ∈ ns, n.wfb = true

/-- The full invariant of a reachable round state. -/
structure StateInv (s : RoundState) : Prop where
  maps : MapsInv s.candidate_vote_counts s.frontier_nodes
  sumLe : votesSum s.candidate_vote_counts ≤ s.total_candidate_votes
  ctLe : s.total_candidate_votes ≤ s.effective_total_votes

/-- The round states visited by the `while` loop of `determine_winner`:
the initialization state, closed under executing one round. -/
inductive ReachableRound (strat : EliminationStrategies)
    (dowdallFn : List Nat → List Nat) (pm : PairsMap) (root : TrieNode) :
    RoundState → Prop where
  | init : ReachableRound strat dowdallFn pm root (initRound root)
  | step {s s2 : RoundState} : ReachableRound strat dowdallFn pm root s →
      roundStep strat dowdallFn pm s = .next s2 →
      ReachableRound strat dowdallFn pm root s2

/-- Modelled from the spec (§4.6 step 4, CondorcetRankedPairs), for
comparison with `findCondorcetRankedPairsWeakest`: "let t be the
second-smallest distinct count in votes (or m if only one distinct count
exists)", then filter at or below t, run the pairwise analysis, and fall
back to the minimum-count candidates when not decisive. -/
def findCondorcetSpecDistinct (votes : List (Nat × Nat)) (pm : PairsMap)
    (lowest : List Nat) : List Nat :=
  let sorted := List.insertionSort (fun a b => a ≤ b) (votes.map (fun p => p.2)).dedup
  match sorted.get? 1 with
  | some t => condorcetWith votes pm lowest t
  | none =>
      match sorted.get? 0 with
      | some t => condorcetWith votes pm lowest t
      | none => []

/-- The edge relation of a preference graph: `a → b` when some weighted
edge joins them. -/
def edgeRel (g : PrefGraph) (a b : Nat) : Prop :=
  ∃ w : Nat, (a, b, w) ∈ g.edges

/-- The symmetrized edge relation (edges treated as undirected). -/
def symmEdge (g : PrefGraph) (a b : Nat) : Prop :=
  edgeRel g a b ∨ edgeRel g b a

/-- A directed cycle reachable from `u`. -/
def cycleFrom (g : PrefGraph) (u : Nat) : Prop :=
  ∃ v : Nat, Relation.ReflTransGen (edgeRel g) u v ∧
    Relation.TransGen (edgeRel g) v v

/-- All edge endpoints lie among the graph nodes. -/
def edgesClosed (g : PrefGraph) : Prop :=
  ∀ e ∈ g.edges, e.1 ∈ g.nodes ∧ e.2.1 ∈ g.nodes

/-- The number of graph nodes not yet explored. -/
def unexpCount (g : PrefGraph) (ex : List Nat) : Nat :=
  (g.nodes.filter (fun v => decide (v ∉ ex))).length

theorem trailSp_cons_pos (x : Int) (rest : List Int) (hx : 0 < x) :
    trailSp (x :: rest) = trailSp rest := by
  cases rest with
  | nil =>
      simp only [trailSp, List.getLast?_singleton, List.getLast?_nil]
      have h1 : ¬(x = -1) := by omega
      have h2 : ¬(x = -2) := by omega
      simp [h1, h2]
  | cons y ys =>
      simp only [trailSp]
      rw [List.getLast?_cons_cons]

theorem fromVectorLoop_ok (v : List Int) : ∀ (cands : List Nat) (seen : List Int),
    (∀ x ∈ v, x ∉ seen) → v.Nodup → negOk v = true →
    (∀ x ∈ v, x ≤ 65535) → (∀ x ∈ v, x ≠ 0) →
    fromVectorLoop v cands none seen = finalCheck (cands ++ posNats v) (trailSp v) := by
  induction v with
  | nil =>
      intro cands seen _ _ _ _ _
      simp [fromVectorLoop, finalCheck, posNats, trailSp]
  | cons x rest ih =>
      intro cands seen hseen hnodup hneg hrange hnz
      have hxseen : x ∉ seen := hseen x (List.mem_cons_self x rest)
      by_cases hxneg : x < 0
      · -- a negative value: `negOk` forces rest = [] and x ∈ {-1, -2}
        have hrest : rest = [] := by
          cases rest with
          | nil => rfl
          | cons y ys =>
              exfalso
              simp only [negOk, Bool.and_eq_true, decide_eq_true_eq] at hneg
              omega
        subst hrest
        simp only [negOk, Bool.or_eq_true, decide_eq_true_eq] at hneg
        have hx12 : x = -1 ∨ x = -2 := by omega
        rcases hx12 with hx1 | hx2
        · subst hx1
          simp [fromVectorLoop, hxseen, SpecialVotes.fromInt, finalCheck, posNats, trailSp]
        · subst hx2
          simp [fromVectorLoop, hxseen, SpecialVotes.fromInt, finalCheck, posNats, trailSp]
      · -- a non-negative value: positivity from the strengthened invariant
        have hx0 : x ≠ 0 := hnz x (List.mem_cons_self x rest)
        have hxpos : 0 < x := by omega
        have hxr : x ≤ 65535 := hrange x (List.mem_cons_self x rest)
        have hstep : fromVectorLoop (x :: rest) cands none seen =
            fromVectorLoop rest (cands ++ [x.toNat]) none (x :: seen) := by
          simp only [fromVectorLoop, if_neg hxseen]
          have hnlt : ¬(x < 0) := hxneg
          rw [if_neg hnlt, if_pos hxpos, if_pos hxr]
        rw [hstep]
        have hnodup' : rest.Nodup := (List.nodup_cons.mp hnodup).2
        have hxrest : x ∉ rest := (List.nodup_cons.mp hnodup).1
        have hseen' : ∀ y ∈ rest, y ∉ (x :: seen) := by
          intro y hy
          simp only [List.mem_cons, not_or]
          constructor
          · intro hyx; exact hxrest (hyx ▸ hy)
          · exact hseen y (List.mem_cons_of_mem x hy)
        have hneg' : negOk rest = true := by
          cases rest with
          | nil => rfl
          | cons y ys =>
              simp only [negOk, Bool.and_eq_true] at hneg
              exact hneg.2
        have hrange' : ∀ y ∈ rest, y ≤ 65535 := fun y hy =>
          hrange y (List.mem_cons_of_mem x hy)
        have hnz' : ∀ y ∈ rest, y ≠ 0 := fun y hy =>
          hnz y (List.mem_cons_of_mem x hy)
        rw [ih (cands ++ [x.toNat]) (x :: seen) hseen' hnodup' hneg' hrange' hnz']
        have hpos : posNats (x :: rest) = x.toNat :: posNats rest := by
          simp [posNats, hxpos]
        rw [hpos, trailSp_cons_pos x rest hxpos, List.append_assoc]
        rfl

theorem toVector_posNats_trailSp (v : List Int) (hneg : negOk v = true)
    (hnz : ∀ x ∈ v, x ≠ 0) :
    RankedVote.toVector ⟨posNats v, trailSp v⟩ = v := by
  induction v with
  | nil => simp [RankedVote.toVector, posNats, trailSp]
  | cons x rest ih =>
      by_cases hxneg : x < 0
      · have hrest : rest = [] := by
          cases rest with
          | nil => rfl
          | cons y ys =>
              exfalso
              simp only [negOk, Bool.and_eq_true, decide_eq_true_eq] at hneg
              omega
        subst hrest
        simp only [negOk, Bool.or_eq_true, decide_eq_true_eq] at hneg
        have hx12 : x = -1 ∨ x = -2 := by omega
        rcases hx12 with hx1 | hx2
        · subst hx1
          simp [RankedVote.toVector, posNats, trailSp, SpecialVotes.toInt]
        · subst hx2
          simp [RankedVote.toVector, posNats, trailSp, SpecialVotes.toInt]
      · have hx0 : x ≠ 0 := hnz x (List.mem_cons_self x rest)
        have hxpos : 0 < x := by omega
        have hneg' : negOk rest = true := by
          cases rest with
          | nil => rfl
          | cons y ys =>
              simp only [negOk, Bool.and_eq_true] at hneg
              exact hneg.2
        have hnz' : ∀ y ∈ rest, y ≠ 0 := fun y hy =>
          hnz y (List.mem_cons_of_mem x hy)
        have hih := ih hneg' hnz'
        have hpos : posNats (x :: rest) = x.toNat :: posNats rest := by
          simp [posNats, hxpos]
        rw [hpos, trailSp_cons_pos x rest hxpos]
        have hcons : RankedVote.toVector ⟨x.toNat :: posNats rest, trailSp rest⟩ =
            (x.toNat : Int) :: RankedVote.toVector ⟨posNats rest, trailSp rest⟩ := by
          simp [RankedVote.toVector]
        rw [hcons, hih]
        have hx : (x.toNat : Int) = x := by omega
        rw [hx]

theorem negOk_last (v : List Int) (l : Int) (hlast : v.getLast? = some l)
    (hneg : negOk v = true) (hl : l < 0) : l = -1 ∨ l = -2 := by
  induction v with
  | nil => simp at hlast
  | cons x rest ih =>
      cases rest with
      | nil =>
          simp only [List.getLast?_singleton, Option.some.injEq] at hlast
          subst hlast
          simp only [negOk, Bool.or_eq_true, decide_eq_true_eq] at hneg
          omega
      | cons y ys =>
          simp only [negOk, Bool.and_eq_true] at hneg
          refine ih ?_ hneg.2
          rw [← hlast, List.getLast?_cons_cons]

theorem posNats_ne_nil (v : List Int) (l : Int) (hmem : l ∈ v) (hl : 0 < l) :
    posNats v ≠ [] := by
  intro hnil
  have : l.toNat ∈ posNats v := by
    simp only [posNats, List.mem_filterMap]
    exact ⟨l, hmem, by simp [hl]⟩
  rw [hnil] at this
  exact absurd this (List.not_mem_nil _)

/-- C5 (amended): for every raw vector satisfying the construction
invariants together with positivity of candidate ids, `from_vector`
succeeds and `to_vector` reproduces the input. -/
theorem C5_roundTrip (v : List Int) (h : ballotInvariantsPos v = true) :
    roundTrips v = true := by
  simp only [ballotInvariantsPos, ballotInvariants, Bool.and_eq_true,
    decide_eq_true_eq, List.all_eq_true] at h
  obtain ⟨⟨⟨⟨hne, hnodup⟩, hnegok⟩, hrange⟩, hnz⟩ := h
  have hrange' : ∀ x ∈ v, x ≤ 65535 := fun x hx => by
    simpa using hrange x hx
  have hnz' : ∀ x ∈ v, x ≠ 0 := fun x hx => by
    simpa using hnz x hx
  have hloop := fromVectorLoop_ok v [] [] (fun x _ hx => absurd hx (List.not_mem_nil x))
    hnodup hnegok hrange' hnz'
  have hres : RankedVote.fromVector v = finalCheck (posNats v) (trailSp v) := by
    simpa [RankedVote.fromVector] using hloop
  set l := v.getLast hne with hldef
  have hlast : v.getLast? = some l := List.getLast?_eq_getLast_of_ne_nil hne
  have hlmem : l ∈ v := List.getLast_mem hne
  have hl0 : l ≠ 0 := hnz' l hlmem
  have hnontriv : ¬(trailSp v = none ∧ posNats v = []) := by
    rintro ⟨hsp, hpn⟩
    by_cases hlneg : l < 0
    · rcases negOk_last v l hlast hnegok hlneg with h1 | h2
      · rw [trailSp, hlast, h1] at hsp
        simp at hsp
      · rw [trailSp, hlast, h2] at hsp
        simp at hsp
    · exact posNats_ne_nil v l hlmem (by omega) hpn
  have hok : RankedVote.fromVector v = .ok ⟨posNats v, trailSp v⟩ := by
    rw [hres, finalCheck, if_neg hnontriv]
  rw [roundTrips, hok]
  simp [toVector_posNats_trailSp v hnegok hnz']

/-- C4: the claim says every non-negative candidate id in range — including
0 — is accepted by `from_vector` and that the function never panics.  On the
raw ballot `[0]` the source's `assert!(raw_ranked_vote_value.is_positive())`
(src/vote.rs line 158) fails, a panic: all construction rules of the claim
hold for `[0]` yet the outcome is a crash, not `Ok`. -/
theorem C4_fromVector_zero_crash :
    RankedVote.fromVector [0] = ParseResult.crash ∧
    ballotInvariants [0] = true ∧
    RankedVote.fromVector [1] = ParseResult.ok ⟨[1], none⟩ := by
  refine ⟨rfl, by decide, rfl⟩

/-- C5 counterexample: the raw ballot `[0]` satisfies every construction
invariant as stated (non-empty, no duplicates, no negative values, in the
u16 candidate-id range), yet `from_vector` crashes on the positivity
assertion, so `to_vector (from_vector [0]) = [0]` fails. -/
theorem C5_counterexample :
    ballotInvariants [0] = true ∧ roundTrips [0] = false ∧
    RankedVote.fromVector [0] = ParseResult.crash := by
  refine ⟨by decide, rfl, rfl⟩

/-- Witness for C5: the amended round-trip law evaluated on the concrete
ballot `[1, 2, -1]`. -/
theorem C5_roundTrip_witness :
    ballotInvariantsPos [1, 2, -1] = true ∧ roundTrips [1, 2, -1] = true :=
  ⟨by decide, C5_roundTrip [1, 2, -1] (by decide)⟩

theorem lookupA_addVotesA_self (k : Nat) (amt : Nat) (l : List (Nat × Nat)) :
    (lookupA k (addVotesA k amt l)).isSome = true := by
  induction l with
  | nil => simp [addVotesA, lookupA]
  | cons p rest ih =>
      obtain ⟨k2, n⟩ := p
      by_cases hk : k2 = k
      · simp [addVotesA, hk, lookupA]
      · simp [addVotesA, hk, lookupA, ih]

theorem lookupA_addVotesA_mono (c k : Nat) (amt : Nat) (l : List (Nat × Nat))
    (h : (lookupA c l).isSome = true) :
    (lookupA c (addVotesA k amt l)).isSome = true := by
  induction l with
  | nil => simp [lookupA] at h
  | cons p rest ih =>
      obtain ⟨k2, n⟩ := p
      simp only [addVotesA]
      by_cases hk : k2 = k
      · rw [if_pos hk]
        by_cases hc : k2 = c
        · simp [lookupA, hc]
        · simp only [lookupA, if_neg hc] at h ⊢
          exact h
      · rw [if_neg hk]
        by_cases hc : k2 = c
        · simp [lookupA, hc]
        · simp only [lookupA, if_neg hc] at h ⊢
          exact ih h

theorem applyTransfers_isSome (transfers : List (Nat × TrieNode × Nat)) :
    ∀ (votes : List (Nat × Nat)) (frontier : List (Nat × List TrieNode)) (c : Nat),
    (lookupA c votes).isSome = true →
    (lookupA c (applyTransfers transfers votes frontier).1).isSome = true := by
  induction transfers with
  | nil => intro votes frontier c h; exact h
  | cons tr rest ih =>
      intro votes frontier c h
      have hstep : applyTransfers (tr :: rest) votes frontier =
          applyTransfers rest (addVotesA tr.1 tr.2.2 votes) (pushNodeA tr.1 tr.2.1 frontier) := rfl
      rw [hstep]
      exact ih _ _ c (lookupA_addVotesA_mono c tr.1 tr.2.2 votes h)

theorem applyTransfers_target_isSome (transfers : List (Nat × TrieNode × Nat)) :
    ∀ (votes : List (Nat × Nat)) (frontier : List (Nat × List TrieNode))
      (tr : Nat × TrieNode × Nat), tr ∈ transfers →
    (lookupA tr.1 (applyTransfers transfers votes frontier).1).isSome = true := by
  induction transfers with
  | nil => intro votes frontier tr h; exact absurd h (List.not_mem_nil tr)
  | cons hd rest ih =>
      intro votes frontier tr h
      have hstep : applyTransfers (hd :: rest) votes frontier =
          applyTransfers rest (addVotesA hd.1 hd.2.2 votes) (pushNodeA hd.1 hd.2.1 frontier) := rfl
      rw [hstep]
      rcases List.mem_cons.mp h with heq | hmem
      · subst heq
        exact applyTransfers_isSome rest _ _ tr.1 (lookupA_addVotesA_self tr.1 tr.2.2 votes)
      · exact ih _ _ tr hmem

/-- C2 (amended): a pending vote transfer may well target a candidate that
was already eliminated (removed from the vote map) in the same round or an
earlier round; whenever a round produces a next state, every transfer
target — previously surviving or previously eliminated — ends up with an
entry in the new vote map (the `entry(..).or_insert(0)` coalescing of
src/lib.rs lines 659-671). -/
theorem C2_transfer_targets_reenter (strat : EliminationStrategies)
    (dowdallFn : List Nat → List Nat) (pm : PairsMap) (s s2 : RoundState)
    (h : roundStep strat dowdallFn pm s = .next s2) :
    ∀ tr ∈ (roundElim strat dowdallFn pm s).1.vote_transfers,
      (lookupA tr.1 s2.candidate_vote_counts).isSome = true := by
  intro tr htr
  unfold roundStep at h
  by_cases h1 : s.total_candidate_votes ≤ s.effective_total_votes / 2
  · rw [if_pos h1] at h; exact absurd h (by simp)
  · rw [if_neg h1] at h
    cases hm : findMajority s.effective_total_votes s.candidate_vote_counts with
    | some c => rw [hm] at h; simp at h
    | none =>
        rw [hm] at h
        simp only at h
        by_cases h2 : (roundElim strat dowdallFn pm s).1.vote_transfers.isEmpty = true
        · rw [if_pos h2] at h; exact absurd h (by simp)
        · rw [if_neg h2] at h
          have hs2 : s2.candidate_vote_counts =
              (applyTransfers (roundElim strat dowdallFn pm s).1.vote_transfers
                (roundElim strat dowdallFn pm s).2.1
                (roundElim strat dowdallFn pm s).2.2).1 := by
            cases h
            rfl
          rw [hs2]
          exact applyTransfers_target_isSome _ _ _ tr htr

/-- C2 counterexample: on the spec's own scenario 3 (ballots `[1,2]` and
`[2,1]`) under `EliminateAll`, round 1 eliminates both candidates 1 and 2
(both are removed from the vote map), yet the pending transfers target
exactly these two eliminated candidates, and the next round's vote map
contains both again — contradicting "once a candidate id is removed from
votes it never re-enters votes or the frontier map". -/
theorem C2_counterexample :
    lookupA 1 (initRound exTrieC2).candidate_vote_counts = some 1 ∧
    roundWeakest .EliminateAll id [] (initRound exTrieC2) = [1, 2] ∧
    (stepNextState (roundStep .EliminateAll id [] (initRound exTrieC2))).map
      (fun s2 => (lookupA 1 s2.candidate_vote_counts,
        lookupA 2 s2.candidate_vote_counts, (lookupA 1 s2.frontier_nodes).isSome)) =
      some (some 1, some 1, true) := by
  refine ⟨rfl, rfl, rfl⟩

/-- Witness for the amended C2: the first pending transfer of that round
targets candidate 2 (just eliminated), and candidate 2 indeed re-enters the
vote map of the next state. -/
theorem C2_transfer_targets_reenter_witness :
    (lookupA 2 ((stepNextState (roundStep .EliminateAll id [] (initRound exTrieC2))).getD
      ⟨[], [], 0, 0⟩).candidate_vote_counts).isSome = true :=
  C2_transfer_targets_reenter .EliminateAll id [] (initRound exTrieC2) _ rfl
    (2, (((exTrieC2.searchChild (.Candidate 1)).getD emptyTrie).searchChild
      (.Candidate 2)).getD emptyTrie, 1) (List.mem_cons_self _ _)

/-- C1: the claim (and spec §4.6 step 5) says a `Special(Withhold)` /
`Special(Abstain)` child contributes `child.num_votes` to the round's
`new_withhold` / `new_abstain`.  The source adds `1` per special child
instead (src/lib.rs lines 263 and 266).  On the ballots of `exTrieC1`,
candidate 1's abstain child carries `num_votes = 2` but contributes only 1
to `new_abstain`, so `effective_total` stays one too high and the code
returns no winner, while the spec's accounting elects candidate 2. -/
theorem C1_special_transfer_bug :
    (Option.map TrieNode.num_votes
      ((exTrieC1.searchChild (.Candidate 1)).bind
        (fun n => n.searchChild (.SpecialVote .ABSTAIN)))) = some 2 ∧
    (Option.map (fun n => (transferNextVotes n).abstain_votes)
      (exTrieC1.searchChild (.Candidate 1))) = some 1 ∧
    (Option.map (fun n => (transferNextVotesSpec n).abstain_votes)
      (exTrieC1.searchChild (.Candidate 1))) = some 2 ∧
    determineWinner exTrieC1 .EliminateAll id = none ∧
    determineWinnerSpec exTrieC1 .EliminateAll id = some 2 := by
  refine ⟨rfl, rfl, rfl, rfl, rfl⟩

theorem initStep_votes_of_special (s : RoundState) (p : VoteValues × TrieNode)
    (h : isCandidateVV p.1 = false) :
    (initStep s p).candidate_vote_counts = s.candidate_vote_counts := by
  obtain ⟨vv, n⟩ := p
  cases vv with
  | Candidate c => simp [isCandidateVV] at h
  | SpecialVote sp => cases sp <;> rfl

theorem initRound_votes_empty (cs : List (VoteValues × TrieNode)) :
    ∀ s : RoundState, cs.all (fun p => !isCandidateVV p.1) = true →
    (List.foldl initStep s cs).candidate_vote_counts = s.candidate_vote_counts := by
  induction cs with
  | nil => intro s _; rfl
  | cons p rest ih =>
      intro s h
      simp only [List.all_cons, Bool.and_eq_true, Bool.not_eq_true'] at h
      rw [List.foldl_cons, ih _ h.2, initStep_votes_of_special s p h.1]

/-- C10: when no child of the trie root is labelled with a candidate (in
particular when no ballot was inserted), `determine_winner` enters its round
loop with an empty vote map and immediately returns no winner. -/
theorem C10_no_candidates (root : TrieNode) (strat : EliminationStrategies)
    (dowdallFn : List Nat → List Nat)
    (h : root.children.all (fun p => !isCandidateVV p.1) = true) :
    determineWinner root strat dowdallFn = none := by
  have hv : (initRound root).candidate_vote_counts = [] :=
    initRound_votes_empty root.children ⟨[], [], 0, 0⟩ h
  unfold determineWinner
  simp only [winnerLoop, hv, List.isEmpty_nil, if_true, Option.getD_some]

/-- Witness for C10: the empty engine and an engine holding only special
ballots both return no winner. -/
theorem C10_no_candidates_witness :
    emptyTrie.children.all (fun p => !isCandidateVV p.1) = true ∧
    determineWinner emptyTrie .EliminateAll id = none ∧
    (insertVotes emptyTrie [⟨[], some .WITHHOLD⟩, ⟨[], some .ABSTAIN⟩]).children.all
      (fun p => !isCandidateVV p.1) = true ∧
    determineWinner (insertVotes emptyTrie [⟨[], some .WITHHOLD⟩, ⟨[], some .ABSTAIN⟩])
      .DowdallScoring id = none :=
  ⟨rfl, C10_no_candidates emptyTrie .EliminateAll id rfl, rfl,
    C10_no_candidates _ .DowdallScoring id rfl⟩

/-- C8: whenever a round of `determine_winner` reaches its elimination step
(vote map non-empty, no impossible-majority return, no majority winner) and
the collected pending transfers are empty, the loop returns no winner
immediately — regardless of how many candidates remain in the vote map, and
by the absent value rather than an error. -/
theorem C8_no_progress (strat : EliminationStrategies)
    (dowdallFn : List Nat → List Nat) (pm : PairsMap) (s : RoundState)
    (hne : s.candidate_vote_counts.isEmpty = false)
    (hct : s.effective_total_votes / 2 < s.total_candidate_votes)
    (hmaj : findMajority s.effective_total_votes s.candidate_vote_counts = none)
    (htr : (roundElim strat dowdallFn pm s).1.vote_transfers.isEmpty = true) :
    ∀ fuel, winnerLoop strat dowdallFn pm (fuel + 1) s = some none := by
  intro fuel
  have hstep : roundStep strat dowdallFn pm s = .noWinner := by
    unfold roundStep
    rw [if_neg (by omega), hmaj]
    simp only [htr, if_true]
  simp only [winnerLoop, hne, Bool.false_eq_true, if_false, hstep]

/-- Witness for C8: on ballots `[1], [2], [2], [3], [3]`, candidate 1 is
eliminated with no onward preference: no transfers arise, candidates 2 and 3
remain, and the loop returns no winner. -/
theorem C8_no_progress_witness :
    (initRound exTrieC8).candidate_vote_counts.isEmpty = false ∧
    (roundElim .EliminateAll id [] (initRound exTrieC8)).1.vote_transfers.isEmpty = true ∧
    (roundElim .EliminateAll id [] (initRound exTrieC8)).2.1.isEmpty = false ∧
    winnerLoop .EliminateAll id [] 1 (initRound exTrieC8) = some none :=
  ⟨rfl, rfl, rfl,
    C8_no_progress .EliminateAll id [] (initRound exTrieC8) rfl (by decide) rfl rfl 0⟩

theorem roundStep_next_eq (strat : EliminationStrategies)
    (dowdallFn : List Nat → List Nat) (pm : PairsMap) (s s2 : RoundState)
    (h : roundStep strat dowdallFn pm s = .next s2) :
    s2 = { candidate_vote_counts :=
             (applyTransfers (roundElim strat dowdallFn pm s).1.vote_transfers
               (roundElim strat dowdallFn pm s).2.1
               (roundElim strat dowdallFn pm s).2.2).1,
           frontier_nodes :=
             (applyTransfers (roundElim strat dowdallFn pm s).1.vote_transfers
               (roundElim strat dowdallFn pm s).2.1
               (roundElim strat dowdallFn pm s).2.2).2,
           effective_total_votes :=
             s.effective_total_votes - (roundElim strat dowdallFn pm s).1.abstain_votes,
           total_candidate_votes :=
             s.total_candidate_votes -
               ((roundElim strat dowdallFn pm s).1.abstain_votes +
                (roundElim strat dowdallFn pm s).1.withhold_votes) } := by
  unfold roundStep at h
  by_cases h1 : s.total_candidate_votes ≤ s.effective_total_votes / 2
  · rw [if_pos h1] at h; simp at h
  · rw [if_neg h1] at h
    cases hm : findMajority s.effective_total_votes s.candidate_vote_counts with
    | some c => rw [hm] at h; simp at h
    | none =>
        rw [hm] at h
        simp only at h
        by_cases h2 : (roundElim strat dowdallFn pm s).1.vote_transfers.isEmpty = true
        · rw [if_pos h2] at h; simp at h
        · rw [if_neg h2] at h
          cases h
          rfl

theorem initStep_ct_le_eff (s : RoundState) (p : VoteValues × TrieNode)
    (h : s.total_candidate_votes ≤ s.effective_total_votes) :
    (initStep s p).total_candidate_votes ≤ (initStep s p).effective_total_votes := by
  obtain ⟨vv, n⟩ := p
  cases vv with
  | Candidate c => simp only [initStep]; omega
  | SpecialVote sp => cases sp <;> simp only [initStep] <;> omega

theorem initFold_ct_le_eff (cs : List (VoteValues × TrieNode)) :
    ∀ s : RoundState, s.total_candidate_votes ≤ s.effective_total_votes →
    (List.foldl initStep s cs).total_candidate_votes ≤
      (List.foldl initStep s cs).effective_total_votes := by
  induction cs with
  | nil => intro s h; exact h
  | cons p rest ih =>
      intro s h
      exact ih _ (initStep_ct_le_eff s p h)

/-- C7: on every reachable round state of a `determine_winner` call,
`total_candidate_votes ≤ effective_total_votes`, and whenever a round
produces a next state the effective total never increases. -/
theorem C7_totals_monotone (strat : EliminationStrategies)
    (dowdallFn : List Nat → List Nat) (pm : PairsMap) (root : TrieNode)
    (s : RoundState) (hreach : ReachableRound strat dowdallFn pm root s) :
    s.total_candidate_votes ≤ s.effective_total_votes ∧
    ∀ s2 : RoundState, roundStep strat dowdallFn pm s = .next s2 →
      s2.effective_total_votes ≤ s.effective_total_votes := by
  have hstep2 : ∀ s s2 : RoundState, roundStep strat dowdallFn pm s = .next s2 →
      s2.effective_total_votes ≤ s.effective_total_votes := by
    intro s1 s2 h
    rw [roundStep_next_eq strat dowdallFn pm s1 s2 h]
    simp only
    omega
  induction hreach with
  | init =>
      refine ⟨initFold_ct_le_eff root.children ⟨[], [], 0, 0⟩ (Nat.le_refl 0), ?_⟩
      intro s2 h
      exact hstep2 _ s2 h
  | @step s1 s2 hprev hnext ih =>
      constructor
      · rw [roundStep_next_eq strat dowdallFn pm s1 s2 hnext]
        simp only
        have := ih.1
        omega
      · intro s3 h
        exact hstep2 _ s3 h

/-- Witness for C7: the totals invariant at the initialization state of the
two-ballot engine and across its first round. -/
theorem C7_totals_monotone_witness :
    ((initRound exTrieC2).total_candidate_votes ≤
      (initRound exTrieC2).effective_total_votes ∧
    ∀ s2 : RoundState, roundStep .EliminateAll id [] (initRound exTrieC2) = .next s2 →
      s2.effective_total_votes ≤ (initRound exTrieC2).effective_total_votes) ∧
    ((stepNextState (roundStep .EliminateAll id [] (initRound exTrieC2))).getD
      ⟨[], [], 0, 0⟩).effective_total_votes ≤ (initRound exTrieC2).effective_total_votes :=
  ⟨C7_totals_monotone .EliminateAll id [] exTrieC2 (initRound exTrieC2) ReachableRound.init,
   (C7_totals_monotone .EliminateAll id [] exTrieC2 (initRound exTrieC2)
     ReachableRound.init).2 _ rfl⟩

theorem wfb_parts (cs : List (VoteValues × TrieNode)) (n : Nat)
    (h : TrieNode.wfb (.mk cs n) = true) :
    sumNums cs ≤ n ∧ (cs.map Prod.fst).Nodup ∧ wfbChildren cs = true := by
  simp only [TrieNode.wfb, Bool.and_eq_true, decide_eq_true_eq] at h
  exact ⟨h.1.1, h.1.2, h.2⟩

theorem wfbChildren_mem (cs : List (VoteValues × TrieNode))
    (h : wfbChildren cs = true) :
    ∀ p ∈ cs, 1 ≤ p.2.num_votes ∧ p.2.wfb = true := by
  induction cs with
  | nil => intro p hp; exact absurd hp (List.not_mem_nil p)
  | cons q rest ih =>
      obtain ⟨vv, c⟩ := q
      simp only [wfbChildren, Bool.and_eq_true, decide_eq_true_eq] at h
      intro p hp
      rcases List.mem_cons.mp hp with heq | hmem
      · subst heq; exact ⟨h.1.1, h.1.2⟩
      · exact ih h.2 p hmem

theorem wfb_child (t : TrieNode) (h : t.wfb = true) :
    ∀ p ∈ t.children, 1 ≤ p.2.num_votes ∧ p.2.wfb = true := by
  obtain ⟨cs, n⟩ := t
  exact wfbChildren_mem cs (wfb_parts cs n h).2.2

theorem lookupA_cons {α β : Type} [DecidableEq α] (k k2 : α) (b : β)
    (rest : List (α × β)) :
    lookupA k ((k2, b) :: rest) = if k2 = k then some b else lookupA k rest := rfl

theorem removeA_cons {α β : Type} [DecidableEq α] (w k2 : α) (b : β)
    (rest : List (α × β)) :
    removeA w ((k2, b) :: rest) = if k2 = w then rest else (k2, b) :: removeA w rest := rfl

theorem addVotesA_cons (k k2 : Nat) (amt b : Nat) (rest : List (Nat × Nat)) :
    addVotesA k amt ((k2, b) :: rest) =
      if k2 = k then (k2, b + amt) :: rest else (k2, b) :: addVotesA k amt rest := rfl

theorem pushNodeA_cons (k k2 : Nat) (node : TrieNode) (bs : List TrieNode)
    (rest : List (Nat × List TrieNode)) :
    pushNodeA k node ((k2, bs) :: rest) =
      if k2 = k then (k2, bs ++ [node]) :: rest else (k2, bs) :: pushNodeA k node rest := rfl

theorem lookupA_mem {α β : Type} [DecidableEq α] (k : α) (l : List (α × β)) (v : β)
    (h : lookupA k l = some v) : (k, v) ∈ l := by
  induction l with
  | nil => simp [lookupA] at h
  | cons p rest ih =>
      obtain ⟨k2, b⟩ := p
      rw [lookupA_cons] at h
      by_cases hk : k2 = k
      · rw [if_pos hk] at h
        subst hk
        cases h
        exact List.mem_cons_self _ _
      · rw [if_neg hk] at h
        exact List.mem_cons_of_mem _ (ih h)

theorem lookupA_removeA_ne {α β : Type} [DecidableEq α] (c w : α) (l : List (α × β))
    (h : c ≠ w) : lookupA c (removeA w l) = lookupA c l := by
  induction l with
  | nil => rfl
  | cons p rest ih =>
      obtain ⟨k2, b⟩ := p
      rw [removeA_cons]
      by_cases hk : k2 = w
      · rw [if_pos hk, lookupA_cons, if_neg (fun hc => h (hk ▸ hc).symm)]
      · rw [if_neg hk, lookupA_cons, lookupA_cons, ih]

theorem removeA_eq_of_none {α β : Type} [DecidableEq α] (w : α) (l : List (α × β))
    (h : lookupA w l = none) : removeA w l = l := by
  induction l with
  | nil => rfl
  | cons p rest ih =>
      obtain ⟨k2, b⟩ := p
      rw [lookupA_cons] at h
      by_cases hk : k2 = w
      · rw [if_pos hk] at h; cases h
      · rw [if_neg hk] at h
        rw [removeA_cons, if_neg hk, ih h]

theorem removeA_sublist {α β : Type} [DecidableEq α] (w : α) (l : List (α × β)) :
    (removeA w l).Sublist l := by
  induction l with
  | nil => exact List.Sublist.refl []
  | cons p rest ih =>
      obtain ⟨k2, b⟩ := p
      rw [removeA_cons]
      by_cases hk : k2 = w
      · rw [if_pos hk]
        exact List.sublist_cons_self _ _
      · rw [if_neg hk]
        exact List.Sublist.cons₂ _ ih

theorem keysOf_removeA_nodup {β : Type} (w : Nat) (l : List (Nat × β))
    (h : (keysOf l).Nodup) : (keysOf (removeA w l)).Nodup :=
  h.sublist ((removeA_sublist w l).map Prod.fst)

theorem lookupA_removeA_self {β : Type} (w : Nat) (l : List (Nat × β))
    (h : (keysOf l).Nodup) : lookupA w (removeA w l) = none := by
  induction l with
  | nil => rfl
  | cons p rest ih =>
      obtain ⟨k2, b⟩ := p
      simp only [keysOf, List.map_cons, List.nodup_cons] at h
      rw [removeA_cons]
      by_cases hk : k2 = w
      · rw [if_pos hk]
        subst hk
        cases hlw : lookupA k2 rest with
        | none => rfl
        | some v =>
            exfalso
            exact h.1 (List.mem_map_of_mem Prod.fst (lookupA_mem k2 rest v hlw))
      · rw [if_neg hk, lookupA_cons, if_neg hk]
        exact ih h.2

theorem removeA_sum (w : Nat) (l : List (Nat × Nat)) (v : Nat)
    (h : lookupA w l = some v) : votesSum (removeA w l) + v = votesSum l := by
  induction l with
  | nil => simp [lookupA] at h
  | cons p rest ih =>
      obtain ⟨k2, b⟩ := p
      rw [lookupA_cons] at h
      rw [removeA_cons]
      by_cases hk : k2 = w
      · rw [if_pos hk] at h ⊢
        cases h
        simp only [votesSum, List.map_cons, List.sum_cons]
        omega
      · rw [if_neg hk] at h ⊢
        have := ih h
        simp only [votesSum, List.map_cons, List.sum_cons] at this ⊢
        omega

theorem lookupA_addVotesA_self_eq (k : Nat) (amt : Nat) (l : List (Nat × Nat)) :
    lookupA k (addVotesA k amt l) = some ((lookupA k l).getD 0 + amt) := by
  induction l with
  | nil => simp [addVotesA, lookupA]
  | cons p rest ih =>
      obtain ⟨k2, b⟩ := p
      rw [addVotesA_cons]
      by_cases hk : k2 = k
      · rw [if_pos hk, lookupA_cons, if_pos hk, lookupA_cons, if_pos hk]
        rfl
      · rw [if_neg hk, lookupA_cons, if_neg hk, lookupA_cons, if_neg hk]
        exact ih

theorem lookupA_addVotesA_ne (c k : Nat) (amt : Nat) (l : List (Nat × Nat))
    (h : c ≠ k) : lookupA c (addVotesA k amt l) = lookupA c l := by
  induction l with
  | nil =>
      show lookupA c [(k, 0 + amt)] = lookupA c []
      rw [lookupA_cons, if_neg (fun hc => h hc.symm)]
  | cons p rest ih =>
      obtain ⟨k2, b⟩ := p
      rw [addVotesA_cons]
      by_cases hk : k2 = k
      · rw [if_pos hk, lookupA_cons, lookupA_cons,
          if_neg (fun hc => h (hc.symm.trans hk)), if_neg (fun hc => h (hc.symm.trans hk))]
      · rw [if_neg hk, lookupA_cons, lookupA_cons, ih]

theorem votesSum_addVotesA (k : Nat) (amt : Nat) (l : List (Nat × Nat)) :
    votesSum (addVotesA k amt l) = votesSum l + amt := by
  induction l with
  | nil => simp [addVotesA, votesSum]
  | cons p rest ih =>
      obtain ⟨k2, b⟩ := p
      rw [addVotesA_cons]
      by_cases hk : k2 = k
      · rw [if_pos hk]
        simp only [votesSum, List.map_cons, List.sum_cons]
        omega
      · rw [if_neg hk]
        simp only [votesSum, List.map_cons, List.sum_cons]
        simp only [votesSum] at ih
        omega

theorem keysOf_addVotesA_mem (c k : Nat) (amt : Nat) (l : List (Nat × Nat))
    (h : c ∈ keysOf (addVotesA k amt l)) : c = k ∨ c ∈ keysOf l := by
  induction l with
  | nil =>
      simp only [addVotesA, keysOf, List.map_cons, List.map_nil,
        List.mem_singleton] at h
      exact Or.inl h
  | cons p rest ih =>
      obtain ⟨k2, b⟩ := p
      rw [addVotesA_cons] at h
      by_cases hk : k2 = k
      · rw [if_pos hk] at h
        simp only [keysOf, List.map_cons, List.mem_cons] at h ⊢
        rcases h with h1 | h2
        · exact Or.inr (Or.inl h1)
        · exact Or.inr (Or.inr h2)
      · rw [if_neg hk] at h
        simp only [keysOf, List.map_cons, List.mem_cons] at h ⊢
        rcases h with h1 | h2
        · exact Or.inr (Or.inl h1)
        · rcases ih h2 with ha | hb
          · exact Or.inl ha
          · exact Or.inr (Or.inr hb)

theorem keysOf_addVotesA_nodup (k : Nat) (amt : Nat) (l : List (Nat × Nat))
    (h : (keysOf l).Nodup) : (keysOf (addVotesA k amt l)).Nodup := by
  induction l with
  | nil => simp [addVotesA, keysOf]
  | cons p rest ih =>
      obtain ⟨k2, b⟩ := p
      simp only [keysOf, List.map_cons, List.nodup_cons] at h
      rw [addVotesA_cons]
      by_cases hk : k2 = k
      · rw [if_pos hk]
        simp only [keysOf, List.map_cons, List.nodup_cons]
        exact ⟨h.1, h.2⟩
      · rw [if_neg hk]
        simp only [keysOf, List.map_cons, List.nodup_cons]
        refine ⟨?_, ih h.2⟩
        intro hmem
        rcases keysOf_addVotesA_mem k2 k amt rest hmem with h1 | h2
        · exact hk h1
        · exact h.1 h2

theorem lookupA_pushNodeA_self_eq (k : Nat) (node : TrieNode)
    (l : List (Nat × List TrieNode)) :
    lookupA k (pushNodeA k node l) = some ((lookupA k l).getD [] ++ [node]) := by
  induction l with
  | nil =>
      show lookupA k [(k, [node])] = _
      rw [lookupA_cons, if_pos rfl]
      rfl
  | cons p rest ih =>
      obtain ⟨k2, bs⟩ := p
      rw [pushNodeA_cons]
      by_cases hk : k2 = k
      · rw [if_pos hk, lookupA_cons, if_pos hk, lookupA_cons, if_pos hk]
        rfl
      · rw [if_neg hk, lookupA_cons, if_neg hk, lookupA_cons, if_neg hk]
        exact ih

theorem lookupA_pushNodeA_ne (c k : Nat) (node : TrieNode)
    (l : List (Nat × List TrieNode)) (h : c ≠ k) :
    lookupA c (pushNodeA k node l) = lookupA c l := by
  induction l with
  | nil =>
      show lookupA c [(k, [node])] = lookupA c []
      rw [lookupA_cons, if_neg (fun hc => h hc.symm)]
  | cons p rest ih =>
      obtain ⟨k2, bs⟩ := p
      rw [pushNodeA_cons]
      by_cases hk : k2 = k
      · rw [if_pos hk, lookupA_cons, lookupA_cons,
          if_neg (fun hc => h (hc.symm.trans hk)), if_neg (fun hc => h (hc.symm.trans hk))]
      · rw [if_neg hk, lookupA_cons, lookupA_cons, ih]

theorem keysOf_pushNodeA_mem (c k : Nat) (node : TrieNode)
    (l : List (Nat × List TrieNode)) (h : c ∈ keysOf (pushNodeA k node l)) :
    c = k ∨ c ∈ keysOf l := by
  induction l with
  | nil =>
      simp only [pushNodeA, keysOf, List.map_cons, List.map_nil,
        List.mem_singleton] at h
      exact Or.inl h
  | cons p rest ih =>
      obtain ⟨k2, bs⟩ := p
      rw [pushNodeA_cons] at h
      by_cases hk : k2 = k
      · rw [if_pos hk] at h
        simp only [keysOf, List.map_cons, List.mem_cons] at h ⊢
        rcases h with h1 | h2
        · exact Or.inr (Or.inl h1)
        · exact Or.inr (Or.inr h2)
      · rw [if_neg hk] at h
        simp only [keysOf, List.map_cons, List.mem_cons] at h ⊢
        rcases h with h1 | h2
        · exact Or.inr (Or.inl h1)
        · rcases ih h2 with ha | hb
          · exact Or.inl ha
          · exact Or.inr (Or.inr hb)

theorem keysOf_pushNodeA_nodup (k : Nat) (node : TrieNode)
    (l : List (Nat × List TrieNode)) (h : (keysOf l).Nodup) :
    (keysOf (pushNodeA k node l)).Nodup := by
  induction l with
  | nil => simp [pushNodeA, keysOf]
  | cons p rest ih =>
      obtain ⟨k2, bs⟩ := p
      simp only [keysOf, List.map_cons, List.nodup_cons] at h
      rw [pushNodeA_cons]
      by_cases hk : k2 = k
      · rw [if_pos hk]
        simp only [keysOf, List.map_cons, List.nodup_cons]
        exact ⟨h.1, h.2⟩
      · rw [if_neg hk]
        simp only [keysOf, List.map_cons, List.nodup_cons]
        refine ⟨?_, ih h.2⟩
        intro hmem
        rcases keysOf_pushNodeA_mem k2 k node rest hmem with h1 | h2
        · exact hk h1
        · exact h.1 h2

theorem transfersSum_append (a b : List (Nat × TrieNode × Nat)) :
    transfersSum (a ++ b) = transfersSum a + transfersSum b := by
  simp [transfersSum, List.map_append, List.sum_append]

theorem changesMass_transferStep (acc : VoteTransferChanges)
    (p : VoteValues × TrieNode) :
    changesMass (transferStep acc p) = changesMass acc + childMass p := by
  obtain ⟨vv, child⟩ := p
  cases vv with
  | Candidate c =>
      simp only [transferStep, changesMass, childMass, transfersSum_append]
      simp [transfersSum]
      omega
  | SpecialVote sp =>
      cases sp <;> simp only [transferStep, changesMass, childMass] <;> omega

theorem changesMass_transferFold (cs : List (VoteValues × TrieNode)) :
    ∀ acc : VoteTransferChanges,
    changesMass (List.foldl transferStep acc cs) =
      changesMass acc + (cs.map childMass).sum := by
  induction cs with
  | nil => intro acc; simp
  | cons p rest ih =>
      intro acc
      rw [List.foldl_cons, ih, changesMass_transferStep]
      simp [List.map_cons, List.sum_cons]
      omega

theorem childMass_sum_le (cs : List (VoteValues × TrieNode))
    (h : ∀ p ∈ cs, 1 ≤ p.2.num_votes) :
    (cs.map childMass).sum ≤ sumNums cs := by
  induction cs with
  | nil => simp [sumNums]
  | cons p rest ih =>
      have hp : childMass p ≤ p.2.num_votes := by
        obtain ⟨vv, child⟩ := p
        cases vv with
        | Candidate c => simp [childMass]
        | SpecialVote sp => simpa [childMass] using h _ (List.mem_cons_self _ _)
      have hrest := ih (fun q hq => h q (List.mem_cons_of_mem p hq))
      simp only [List.map_cons, List.sum_cons, sumNums] at hrest ⊢
      omega

theorem transferNextVotes_mass (n : TrieNode) (h : n.wfb = true) :
    changesMass (transferNextVotes n) ≤ n.num_votes := by
  obtain ⟨cs, num⟩ := n
  have hparts := wfb_parts cs num h
  have hchild : ∀ p ∈ cs, 1 ≤ p.2.num_votes := by
    intro p hp
    exact (wfbChildren_mem cs hparts.2.2 p hp).1
  have hfold := changesMass_transferFold cs ⟨0, 0, []⟩
  have hmass : changesMass ⟨0, 0, []⟩ = 0 := rfl
  have hle := childMass_sum_le cs hchild
  show changesMass (List.foldl transferStep ⟨0, 0, []⟩ cs) ≤ num
  rw [hfold, hmass]
  omega

theorem transferFold_items (P : Nat × TrieNode × Nat → Prop)
    (cs : List (VoteValues × TrieNode)) :
    ∀ acc : VoteTransferChanges,
    (∀ tr ∈ acc.vote_transfers, P tr) →
    (∀ p ∈ cs, ∀ c : Nat, p.1 = .Candidate c → P (c, p.2, p.2.num_votes)) →
    ∀ tr ∈ (List.foldl transferStep acc cs).vote_transfers, P tr := by
  induction cs with
  | nil => intro acc hacc _ tr htr; exact hacc tr htr
  | cons p rest ih =>
      intro acc hacc hcs tr htr
      rw [List.foldl_cons] at htr
      refine ih (transferStep acc p) ?_ (fun q hq => hcs q (List.mem_cons_of_mem p hq)) tr htr
      intro tr2 htr2
      obtain ⟨vv, child⟩ := p
      cases vv with
      | Candidate c =>
          simp only [transferStep, List.mem_append, List.mem_singleton] at htr2
          rcases htr2 with h1 | h2
          · exact hacc tr2 h1
          · subst h2
            exact hcs (VoteValues.Candidate c, child) (List.mem_cons_self _ _) c rfl
      | SpecialVote sp =>
          cases sp <;> exact hacc tr2 htr2

theorem transferNextVotes_items (n : TrieNode) (h : n.wfb = true) :
    ∀ tr ∈ (transferNextVotes n).vote_transfers,
      tr.2.2 = tr.2.1.num_votes ∧ tr.2.1.wfb = true := by
  refine transferFold_items _ n.children ⟨0, 0, []⟩ ?_ ?_
  · intro tr htr
    exact absurd htr (List.not_mem_nil tr)
  · intro p hp c hpc
    refine ⟨rfl, ?_⟩
    exact (wfb_child n h p hp).2

theorem changesMass_combine (a b : VoteTransferChanges) :
    changesMass (combineChanges a b) = changesMass a + changesMass b := by
  simp only [combineChanges, changesMass, transfersSum_append]
  omega

theorem accTransfers_mass (nodes : List TrieNode)
    (hwf : ∀ n ∈ nodes, n.wfb = true) :
    ∀ acc : VoteTransferChanges,
    changesMass (accTransfers acc nodes) ≤ changesMass acc + sumNodes nodes := by
  induction nodes with
  | nil => intro acc; simp [accTransfers, sumNodes]
  | cons n rest ih =>
      intro acc
      have hn : n.wfb = true := hwf n (List.mem_cons_self _ _)
      have hrest := ih (fun m hm => hwf m (List.mem_cons_of_mem n hm))
      show changesMass (accTransfers (combineChanges acc (transferNextVotes n)) rest) ≤ _
      calc changesMass (accTransfers (combineChanges acc (transferNextVotes n)) rest)
          ≤ changesMass (combineChanges acc (transferNextVotes n)) + sumNodes rest :=
            hrest _
        _ = changesMass acc + changesMass (transferNextVotes n) + sumNodes rest := by
            rw [changesMass_combine]
        _ ≤ changesMass acc + n.num_votes + sumNodes rest := by
            have := transferNextVotes_mass n hn
            omega
        _ = changesMass acc + sumNodes (n :: rest) := by
            simp only [sumNodes, List.map_cons, List.sum_cons]
            omega

theorem accTransfers_items (P : Nat × TrieNode × Nat → Prop) (nodes : List TrieNode)
    (hwf : ∀ n ∈ nodes, n.wfb = true)
    (hP : ∀ n : TrieNode, n.wfb = true →
      ∀ tr ∈ (transferNextVotes n).vote_transfers, P tr) :
    ∀ acc : VoteTransferChanges, (∀ tr ∈ acc.vote_transfers, P tr) →
    ∀ tr ∈ (accTransfers acc nodes).vote_transfers, P tr := by
  induction nodes with
  | nil => intro acc hacc tr htr; exact hacc tr htr
  | cons n rest ih =>
      intro acc hacc tr htr
      have hn : n.wfb = true := hwf n (List.mem_cons_self _ _)
      refine ih (fun m hm => hwf m (List.mem_cons_of_mem n hm))
        (combineChanges acc (transferNextVotes n)) ?_ tr htr
      intro tr2 htr2
      simp only [combineChanges, List.mem_append] at htr2
      rcases htr2 with h1 | h2
      · exact hacc tr2 h1
      · exact hP n hn tr2 h2

theorem sumNodes_append (a b : List TrieNode) :
    sumNodes (a ++ b) = sumNodes a + sumNodes b := by
  simp [sumNodes, List.map_append, List.sum_append]

theorem lookupA_append {α β : Type} [DecidableEq α] (k : α) (l1 l2 : List (α × β)) :
    lookupA k (l1 ++ l2) =
      match lookupA k l1 with
      | some v => some v
      | none => lookupA k l2 := by
  induction l1 with
  | nil => rfl
  | cons p rest ih =>
      obtain ⟨k2, b⟩ := p
      rw [List.cons_append, lookupA_cons, lookupA_cons]
      by_cases hk : k2 = k
      · rw [if_pos hk, if_pos hk]
      · rw [if_neg hk, if_neg hk, ih]

theorem lookupA_none_not_mem {β : Type} (k : Nat) (l : List (Nat × β))
    (h : lookupA k l = none) : k ∉ keysOf l := by
  induction l with
  | nil => simp [keysOf]
  | cons p rest ih =>
      obtain ⟨k2, b⟩ := p
      rw [lookupA_cons] at h
      by_cases hk : k2 = k
      · rw [if_pos hk] at h; cases h
      · rw [if_neg hk] at h
        simp only [keysOf, List.map_cons, List.mem_cons]
        rintro (h1 | h2)
        · exact hk h1.symm
        · exact ih h h2

theorem mapsInv_removeA (w : Nat) (votes : List (Nat × Nat))
    (frontier : List (Nat × List TrieNode)) (h : MapsInv votes frontier) :
    MapsInv (removeA w votes) (removeA w frontier) := by
  constructor
  · exact keysOf_removeA_nodup _ _ h.nodupV
  · exact keysOf_removeA_nodup _ _ h.nodupF
  · intro c
    by_cases hc : c = w
    · subst hc
      rw [lookupA_removeA_self _ _ h.nodupV, lookupA_removeA_self _ _ h.nodupF]
      rfl
    · rw [lookupA_removeA_ne _ _ _ hc, lookupA_removeA_ne _ _ _ hc]
      exact h.same c
  · intro c ns hns
    by_cases hc : c = w
    · subst hc
      rw [lookupA_removeA_self _ _ h.nodupF] at hns
      cases hns
    · rw [lookupA_removeA_ne _ _ _ hc] at hns
      rw [lookupA_removeA_ne _ _ _ hc]
      exact h.link c ns hns
  · intro c ns hns
    by_cases hc : c = w
    · subst hc
      rw [lookupA_removeA_self _ _ h.nodupF] at hns
      cases hns
    · rw [lookupA_removeA_ne _ _ _ hc] at hns
      exact h.wfF c ns hns

theorem eliminateLoop_inv (ws : List Nat) :
    ∀ (acc : VoteTransferChanges) (votes : List (Nat × Nat))
      (frontier : List (Nat × List TrieNode)),
    MapsInv votes frontier →
    MapsInv (eliminateLoop ws acc votes frontier).2.1
      (eliminateLoop ws acc votes frontier).2.2 ∧
    changesMass (eliminateLoop ws acc votes frontier).1 +
      votesSum (eliminateLoop ws acc votes frontier).2.1 ≤
      changesMass acc + votesSum votes ∧
    ∀ tr ∈ (eliminateLoop ws acc votes frontier).1.vote_transfers,
      tr ∈ acc.vote_transfers ∨ (tr.2.2 = tr.2.1.num_votes ∧ tr.2.1.wfb = true) := by
  induction ws with
  | nil =>
      intro acc votes frontier h
      exact ⟨h, Nat.le_refl _, fun tr htr => Or.inl htr⟩
  | cons w ws ih =>
      intro acc votes frontier h
      have hstep : eliminateLoop (w :: ws) acc votes frontier =
          eliminateLoop ws (accTransfers acc ((lookupA w frontier).getD []))
            (removeA w votes) (removeA w frontier) := rfl
      cases hw : lookupA w frontier with
      | none =>
          have hv : lookupA w votes = none := by
            cases hlv : lookupA w votes with
            | none => rfl
            | some v =>
                have hsame := h.same w
                rw [hw, hlv] at hsame
                simp at hsame
          have hnodes : (lookupA w frontier).getD [] = [] := by rw [hw]; rfl
          have haccnil : accTransfers acc [] = acc := rfl
          rw [hstep, hnodes, haccnil, removeA_eq_of_none _ _ hv,
            removeA_eq_of_none _ _ hw]
          exact ih acc votes frontier h
      | some ns =>
          have hwfns : ∀ n ∈ ns, n.wfb = true := h.wfF w ns hw
          have hlink : lookupA w votes = some (sumNodes ns) := h.link w ns hw
          have hsum : votesSum (removeA w votes) + sumNodes ns = votesSum votes :=
            removeA_sum w votes _ hlink
          have hmass : changesMass (accTransfers acc ns) ≤
              changesMass acc + sumNodes ns :=
            accTransfers_mass ns hwfns acc
          have hinv2 := mapsInv_removeA w votes frontier h
          have hnodes : (lookupA w frontier).getD [] = ns := by rw [hw]; rfl
          rw [hstep, hnodes]
          obtain ⟨ha, hb, hc2⟩ :=
            ih (accTransfers acc ns) (removeA w votes) (removeA w frontier) hinv2
          refine ⟨ha, by omega, ?_⟩
          intro tr htr
          rcases hc2 tr htr with h1 | h2
          · refine (accTransfers_items
              (fun tr2 => tr2 ∈ acc.vote_transfers ∨
                (tr2.2.2 = tr2.2.1.num_votes ∧ tr2.2.1.wfb = true))
              ns hwfns ?_ acc ?_ tr h1)
            · intro n hn tr2 htr2
              exact Or.inr (transferNextVotes_items n hn tr2 htr2)
            · intro tr2 htr2
              exact Or.inl htr2
          · exact Or.inr h2

theorem mapsInv_push (c : Nat) (n : TrieNode) (k : Nat)
    (votes : List (Nat × Nat)) (frontier : List (Nat × List TrieNode))
    (h : MapsInv votes frontier) (hk : k = n.num_votes) (hwfn : n.wfb = true) :
    MapsInv (addVotesA c k votes) (pushNodeA c n frontier) := by
  constructor
  · exact keysOf_addVotesA_nodup _ _ _ h.nodupV
  · exact keysOf_pushNodeA_nodup _ _ _ h.nodupF
  · intro c2
    by_cases hc : c2 = c
    · subst hc
      rw [lookupA_addVotesA_self_eq, lookupA_pushNodeA_self_eq]
      rfl
    · rw [lookupA_addVotesA_ne _ _ _ _ hc, lookupA_pushNodeA_ne _ _ _ _ hc]
      exact h.same c2
  · intro c2 ns hns
    by_cases hc : c2 = c
    · subst hc
      rw [lookupA_pushNodeA_self_eq] at hns
      cases hns
      rw [lookupA_addVotesA_self_eq]
      congr 1
      rw [sumNodes_append]
      cases hf : lookupA c2 frontier with
      | none =>
          have hv : lookupA c2 votes = none := by
            cases hlv : lookupA c2 votes with
            | none => rfl
            | some v =>
                have hsame := h.same c2
                rw [hf, hlv] at hsame
                simp at hsame
          rw [hv]
          simp [sumNodes, hk]
      | some ns0 =>
          have hv := h.link c2 ns0 hf
          rw [hv]
          simp only [Option.getD_some]
          simp [sumNodes, hk]
    · rw [lookupA_pushNodeA_ne _ _ _ _ hc] at hns
      rw [lookupA_addVotesA_ne _ _ _ _ hc]
      exact h.link c2 ns hns
  · intro c2 ns hns m hm
    by_cases hc : c2 = c
    · subst hc
      rw [lookupA_pushNodeA_self_eq] at hns
      cases hns
      rcases List.mem_append.mp hm with h1 | h2
      · cases hf : lookupA c2 frontier with
        | none => rw [hf] at h1; simp at h1
        | some ns0 =>
            rw [hf] at h1
            exact h.wfF c2 ns0 hf m h1
      · rw [List.mem_singleton] at h2
        subst h2
        exact hwfn
    · rw [lookupA_pushNodeA_ne _ _ _ _ hc] at hns
      exact h.wfF c2 ns hns m hm

theorem applyTransfers_inv (T : List (Nat × TrieNode × Nat)) :
    ∀ (votes : List (Nat × Nat)) (frontier : List (Nat × List TrieNode)),
    MapsInv votes frontier →
    (∀ tr ∈ T, tr.2.2 = tr.2.1.num_votes ∧ tr.2.1.wfb = true) →
    MapsInv (applyTransfers T votes frontier).1 (applyTransfers T votes frontier).2 ∧
    votesSum (applyTransfers T votes frontier).1 = votesSum votes + transfersSum T := by
  induction T with
  | nil =>
      intro votes frontier h _
      exact ⟨h, by simp [applyTransfers, transfersSum]⟩
  | cons tr T ih =>
      intro votes frontier h hT
      obtain ⟨c, n, k⟩ := tr
      have hk : k = n.num_votes := (hT _ (List.mem_cons_self _ _)).1
      have hwfn : n.wfb = true := (hT _ (List.mem_cons_self _ _)).2
      have hstep : applyTransfers ((c, n, k) :: T) votes frontier =
          applyTransfers T (addVotesA c k votes) (pushNodeA c n frontier) := rfl
      rw [hstep]
      have hinv1 := mapsInv_push c n k votes frontier h hk hwfn
      obtain ⟨ha, hb⟩ := ih _ _ hinv1
        (fun tr2 htr2 => hT tr2 (List.mem_cons_of_mem _ htr2))
      refine ⟨ha, ?_⟩
      rw [hb, votesSum_addVotesA]
      simp only [transfersSum, List.map_cons, List.sum_cons]
      omega

theorem stateInv_step (strat : EliminationStrategies)
    (dowdallFn : List Nat → List Nat) (pm : PairsMap) (s s2 : RoundState)
    (hinv : StateInv s) (h : roundStep strat dowdallFn pm s = .next s2) :
    StateInv s2 := by
  have hEdef : roundElim strat dowdallFn pm s =
      eliminateLoop (roundWeakest strat dowdallFn pm s) ⟨0, 0, []⟩
        s.candidate_vote_counts s.frontier_nodes := rfl
  obtain ⟨hmapsE, hmassE, hitemsE⟩ :=
    eliminateLoop_inv (roundWeakest strat dowdallFn pm s) ⟨0, 0, []⟩
      s.candidate_vote_counts s.frontier_nodes hinv.maps
  rw [← hEdef] at hmapsE hmassE hitemsE
  have hitems : ∀ tr ∈ (roundElim strat dowdallFn pm s).1.vote_transfers,
      tr.2.2 = tr.2.1.num_votes ∧ tr.2.1.wfb = true := by
    intro tr htr
    rcases hitemsE tr htr with h1 | h2
    · exact absurd h1 (List.not_mem_nil tr)
    · exact h2
  obtain ⟨hmapsA, hsumA⟩ :=
    applyTransfers_inv (roundElim strat dowdallFn pm s).1.vote_transfers
      (roundElim strat dowdallFn pm s).2.1
      (roundElim strat dowdallFn pm s).2.2 hmapsE hitems
  rw [roundStep_next_eq strat dowdallFn pm s s2 h]
  have hmass0 : changesMass (⟨0, 0, []⟩ : VoteTransferChanges) = 0 := rfl
  rw [hmass0] at hmassE
  simp only [changesMass] at hmassE
  constructor
  · exact hmapsA
  · simp only
    rw [hsumA]
    have h1 := hinv.sumLe
    omega
  · simp only
    have h1 := hinv.ctLe
    omega

theorem initStep_inv (s : RoundState) (p : VoteValues × TrieNode)
    (hmaps : MapsInv s.candidate_vote_counts s.frontier_nodes)
    (hsum : votesSum s.candidate_vote_counts = s.total_candidate_votes)
    (hct : s.total_candidate_votes ≤ s.effective_total_votes)
    (hfresh : ∀ c : Nat, p.1 = .Candidate c →
      lookupA c s.candidate_vote_counts = none)
    (hwfp : p.2.wfb = true) :
    MapsInv (initStep s p).candidate_vote_counts (initStep s p).frontier_nodes ∧
    votesSum (initStep s p).candidate_vote_counts =
      (initStep s p).total_candidate_votes ∧
    (initStep s p).total_candidate_votes ≤ (initStep s p).effective_total_votes := by
  obtain ⟨vv, n⟩ := p
  cases vv with
  | SpecialVote sp =>
      cases sp
      · exact ⟨hmaps, hsum, by simp only [initStep]; omega⟩
      · exact ⟨hmaps, hsum, by simp only [initStep]; omega⟩
  | Candidate c =>
      have hfv : lookupA c s.candidate_vote_counts = none := hfresh c rfl
      have hff : lookupA c s.frontier_nodes = none := by
        cases hlf : lookupA c s.frontier_nodes with
        | none => rfl
        | some ns =>
            have hsame := hmaps.same c
            rw [hfv, hlf] at hsame
            simp at hsame
      have hkv : c ∉ keysOf s.candidate_vote_counts := lookupA_none_not_mem c _ hfv
      have hkf : c ∉ keysOf s.frontier_nodes := lookupA_none_not_mem c _ hff
      refine ⟨⟨?_, ?_, ?_, ?_, ?_⟩, ?_, ?_⟩
      · show (keysOf (s.candidate_vote_counts ++ [(c, n.num_votes)])).Nodup
        simp only [keysOf, List.map_append, List.map_cons, List.map_nil]
        rw [List.nodup_append]
        exact ⟨hmaps.nodupV, List.nodup_singleton c,
          fun a ha hb => (List.mem_singleton.mp hb ▸ hkv) (List.mem_singleton.mp hb ▸ ha)⟩
      · show (keysOf (s.frontier_nodes ++ [(c, [n])])).Nodup
        simp only [keysOf, List.map_append, List.map_cons, List.map_nil]
        rw [List.nodup_append]
        exact ⟨hmaps.nodupF, List.nodup_singleton c,
          fun a ha hb => (List.mem_singleton.mp hb ▸ hkf) (List.mem_singleton.mp hb ▸ ha)⟩
      · intro c2
        show (lookupA c2 (s.candidate_vote_counts ++ [(c, n.num_votes)])).isSome =
          (lookupA c2 (s.frontier_nodes ++ [(c, [n])])).isSome
        rw [lookupA_append, lookupA_append]
        have hsame := hmaps.same c2
        cases hv2 : lookupA c2 s.candidate_vote_counts with
        | some v =>
            cases hf2 : lookupA c2 s.frontier_nodes with
            | some ns => rfl
            | none => rw [hv2, hf2] at hsame; simp at hsame
        | none =>
            cases hf2 : lookupA c2 s.frontier_nodes with
            | some ns => rw [hv2, hf2] at hsame; simp at hsame
            | none =>
                simp only
                rw [lookupA_cons, lookupA_cons]
                by_cases hc2 : c = c2
                · rw [if_pos hc2, if_pos hc2]; rfl
                · rw [if_neg hc2, if_neg hc2]; rfl
      · intro c2 ns hns
        show lookupA c2 (s.candidate_vote_counts ++ [(c, n.num_votes)]) =
          some (sumNodes ns)
        rw [lookupA_append]
        have hns2 : lookupA c2 (s.frontier_nodes ++ [(c, [n])]) = some ns := hns
        rw [lookupA_append] at hns2
        clear hns
        rename' hns2 => hns
        cases hf2 : lookupA c2 s.frontier_nodes with
        | some ns0 =>
            rw [hf2] at hns
            simp only [Option.some.injEq] at hns
            subst hns
            have := hmaps.link c2 ns0 hf2
            rw [this]
        | none =>
            rw [hf2] at hns
            simp only at hns
            rw [lookupA_cons] at hns
            by_cases hc2 : c = c2
            · rw [if_pos hc2] at hns
              simp only [Option.some.injEq] at hns
              subst hns
              have hv2 : lookupA c2 s.candidate_vote_counts = none := by
                have hsame := hmaps.same c2
                rw [hf2] at hsame
                cases hlv : lookupA c2 s.candidate_vote_counts with
                | none => rfl
                | some v => rw [hlv] at hsame; simp at hsame
              rw [hv2]
              simp only
              rw [lookupA_cons, if_pos hc2]
              simp [sumNodes]
            · rw [if_neg hc2] at hns
              cases hns
      · intro c2 ns hns m hm
        have hns2 : lookupA c2 (s.frontier_nodes ++ [(c, [n])]) = some ns := hns
        rw [lookupA_append] at hns2
        clear hns
        rename' hns2 => hns
        cases hf2 : lookupA c2 s.frontier_nodes with
        | some ns0 =>
            rw [hf2] at hns
            simp only [Option.some.injEq] at hns
            subst hns
            exact hmaps.wfF c2 ns0 hf2 m hm
        | none =>
            rw [hf2] at hns
            simp only at hns
            rw [lookupA_cons] at hns
            by_cases hc2 : c = c2
            · rw [if_pos hc2] at hns
              simp only [Option.some.injEq] at hns
              subst hns
              rw [List.mem_singleton] at hm
              subst hm
              exact hwfp
            · rw [if_neg hc2] at hns
              cases hns
      · show votesSum (s.candidate_vote_counts ++ [(c, n.num_votes)]) = _
        simp only [votesSum, List.map_append, List.map_cons, List.map_nil,
          List.sum_append, List.sum_cons, List.sum_nil]
        simp only [votesSum] at hsum
        simp only [initStep]
        omega
      · simp only [initStep]
        omega

theorem initFold_inv (cs : List (VoteValues × TrieNode)) :
    ∀ s : RoundState,
    (cs.map Prod.fst).Nodup → wfbChildren cs = true →
    MapsInv s.candidate_vote_counts s.frontier_nodes →
    votesSum s.candidate_vote_counts = s.total_candidate_votes →
    s.total_candidate_votes ≤ s.effective_total_votes →
    (∀ p ∈ cs, ∀ c : Nat, p.1 = .Candidate c →
      lookupA c s.candidate_vote_counts = none) →
    MapsInv (List.foldl initStep s cs).candidate_vote_counts
      (List.foldl initStep s cs).frontier_nodes ∧
    votesSum (List.foldl initStep s cs).candidate_vote_counts =
      (List.foldl initStep s cs).total_candidate_votes ∧
    (List.foldl initStep s cs).total_candidate_votes ≤
      (List.foldl initStep s cs).effective_total_votes := by
  induction cs with
  | nil =>
      intro s _ _ hmaps hsum hct _
      exact ⟨hmaps, hsum, hct⟩
  | cons p rest ih =>
      intro s hnodup hwf hmaps hsum hct hfresh
      simp only [List.map_cons, List.nodup_cons] at hnodup
      have hwfparts : 1 ≤ p.2.num_votes ∧ p.2.wfb = true ∧ wfbChildren rest = true := by
        obtain ⟨vv, n⟩ := p
        simp only [wfbChildren, Bool.and_eq_true, decide_eq_true_eq] at hwf
        exact ⟨hwf.1.1, hwf.1.2, hwf.2⟩
      obtain ⟨hstepm, hsteps, hstepc⟩ :=
        initStep_inv s p hmaps hsum hct (fun c hc => hfresh p (List.mem_cons_self _ _) c hc)
        hwfparts.2.1
      rw [List.foldl_cons]
      refine ih (initStep s p) hnodup.2 hwfparts.2.2 hstepm hsteps hstepc ?_
      intro q hq c hqc
      obtain ⟨vv, n⟩ := p
      cases vv with
      | SpecialVote sp =>
          have : (initStep s (VoteValues.SpecialVote sp, n)).candidate_vote_counts =
              s.candidate_vote_counts := by
            cases sp <;> rfl
          rw [this]
          exact hfresh q (List.mem_cons_of_mem _ hq) c hqc
      | Candidate c0 =>
          have : (initStep s (VoteValues.Candidate c0, n)).candidate_vote_counts =
              s.candidate_vote_counts ++ [(c0, n.num_votes)] := rfl
          rw [this, lookupA_append]
          rw [hfresh q (List.mem_cons_of_mem _ hq) c hqc]
          simp only
          rw [lookupA_cons]
          have hne : c0 ≠ c := by
            intro heq
            subst heq
            have hmem : q.1 ∈ rest.map Prod.fst := List.mem_map_of_mem Prod.fst hq
            rw [hqc] at hmem
            exact hnodup.1 hmem
          rw [if_neg hne]
          rfl

theorem stateInv_init (root : TrieNode) (hwf : root.wfb = true) :
    StateInv (initRound root) := by
  obtain ⟨cs, num⟩ := root
  have hparts := wfb_parts cs num hwf
  have hch := wfbChildren_mem cs hparts.2.2
  have hbase : MapsInv ([] : List (Nat × Nat)) ([] : List (Nat × List TrieNode)) := by
    refine ⟨List.nodup_nil, List.nodup_nil, fun c => rfl, ?_, ?_⟩
    · intro c ns hns; cases hns
    · intro c ns hns; cases hns
  obtain ⟨hm, hs, hc⟩ := initFold_inv cs ⟨[], [], 0, 0⟩ hparts.2.1 hparts.2.2 hbase rfl
    (Nat.le_refl 0) (fun p _ c _ => rfl)
  exact ⟨hm, Nat.le_of_eq hs, hc⟩

theorem stateInv_reachable (strat : EliminationStrategies)
    (dowdallFn : List Nat → List Nat) (pm : PairsMap) (root : TrieNode)
    (hwf : root.wfb = true) (s : RoundState)
    (hreach : ReachableRound strat dowdallFn pm root s) : StateInv s := by
  induction hreach with
  | init => exact stateInv_init root hwf
  | @step s1 s2 hprev hnext ih => exact stateInv_step strat dowdallFn pm s1 s2 ih hnext

theorem mem_votesSum_le (l : List (Nat × Nat)) (c n : Nat) (h : (c, n) ∈ l) :
    n ≤ votesSum l := by
  induction l with
  | nil => exact absurd h (List.not_mem_nil _)
  | cons p rest ih =>
      rcases List.mem_cons.mp h with heq | hmem
      · subst heq
        simp only [votesSum, List.map_cons, List.sum_cons]
        omega
      · have := ih hmem
        simp only [votesSum, List.map_cons, List.sum_cons] at this ⊢
        omega

theorem pair_votesSum_le (l : List (Nat × Nat)) (c1 n1 c2 n2 : Nat)
    (h1 : (c1, n1) ∈ l) (h2 : (c2, n2) ∈ l) (hne : c1 ≠ c2) :
    n1 + n2 ≤ votesSum l := by
  obtain ⟨l1, l2, rfl⟩ := List.append_of_mem h1
  have h2m : (c2, n2) ∈ l1 ++ l2 := by
    rcases List.mem_append.mp h2 with ha | hb
    · exact List.mem_append.mpr (Or.inl ha)
    · rcases List.mem_cons.mp hb with heq | hc
      · exact absurd (congrArg Prod.fst heq).symm hne
      · exact List.mem_append.mpr (Or.inr hc)
  have hb := mem_votesSum_le (l1 ++ l2) c2 n2 h2m
  simp only [votesSum, List.map_append, List.map_cons, List.sum_append,
    List.sum_cons] at hb ⊢
  omega

theorem findMajority_unique (eff : Nat) (l : List (Nat × Nat)) (c n : Nat)
    (hmem : (c, n) ∈ l) (hP : eff / 2 < n)
    (huniq : ∀ c2 n2 : Nat, (c2, n2) ∈ l → eff / 2 < n2 → c2 = c) :
    findMajority eff l = some c := by
  induction l with
  | nil => exact absurd hmem (List.not_mem_nil _)
  | cons p rest ih =>
      obtain ⟨c0, n0⟩ := p
      show (if eff / 2 < n0 then some c0 else findMajority eff rest) = some c
      by_cases h0 : eff / 2 < n0
      · rw [if_pos h0]
        rw [huniq c0 n0 (List.mem_cons_self _ _) h0]
      · rw [if_neg h0]
        have hmem2 : (c, n) ∈ rest := by
          rcases List.mem_cons.mp hmem with heq | hm
          · cases heq
            exact absurd hP h0
          · exact hm
        exact ih hmem2 (fun c2 n2 hm2 hp2 => huniq c2 n2 (List.mem_cons_of_mem _ hm2) hp2)

/-- C6: at any reachable round state of `determine_winner` on a well-formed
trie, if candidate `c` holds strictly more than half the effective total,
then the round loop returns `c` in that round (for any remaining fuel), and
`c` is the only candidate that can hold such a majority. -/
theorem C6_majority_winner (strat : EliminationStrategies)
    (dowdallFn : List Nat → List Nat) (pm : PairsMap) (root : TrieNode)
    (s : RoundState) (hwf : root.wfb = true)
    (hreach : ReachableRound strat dowdallFn pm root s) (c n : Nat)
    (hc : lookupA c s.candidate_vote_counts = some n)
    (hn : s.effective_total_votes / 2 < n) :
    (∀ fuel : Nat, winnerLoop strat dowdallFn pm (fuel + 1) s = some (some c)) ∧
    ∀ c2 n2 : Nat, lookupA c2 s.candidate_vote_counts = some n2 →
      s.effective_total_votes / 2 < n2 → c2 = c := by
  have hinv := stateInv_reachable strat dowdallFn pm root hwf s hreach
  have hmem : (c, n) ∈ s.candidate_vote_counts := lookupA_mem c _ n hc
  have hsum : votesSum s.candidate_vote_counts ≤ s.effective_total_votes :=
    Nat.le_trans hinv.sumLe hinv.ctLe
  have huniq : ∀ c2 n2 : Nat, (c2, n2) ∈ s.candidate_vote_counts →
      s.effective_total_votes / 2 < n2 → c2 = c := by
    intro c2 n2 hm2 hp2
    by_contra hne
    have := pair_votesSum_le s.candidate_vote_counts c2 n2 c n hm2 hmem hne
    omega
  have hmaj : findMajority s.effective_total_votes s.candidate_vote_counts = some c :=
    findMajority_unique _ _ c n hmem hn huniq
  have hstep : roundStep strat dowdallFn pm s = .winner c := by
    unfold roundStep
    have hclt : s.effective_total_votes / 2 < s.total_candidate_votes := by
      have := mem_votesSum_le s.candidate_vote_counts c n hmem
      have h2 := hinv.sumLe
      omega
    rw [if_neg (by omega), hmaj]
  refine ⟨?_, ?_⟩
  · intro fuel
    have hne : s.candidate_vote_counts.isEmpty = false := by
      cases hl : s.candidate_vote_counts with
      | nil => rw [hl] at hmem; exact absurd hmem (List.not_mem_nil _)
      | cons p rest => rfl
    simp only [winnerLoop, hne, Bool.false_eq_true, if_false, hstep]
  · intro c2 n2 hc2 hp2
    exact huniq c2 n2 (lookupA_mem c2 _ n2 hc2) hp2

/-- Witness for C6: on ballots `[1], [1], [2]` candidate 1 holds 2 of 3
effective votes and is returned immediately. -/
theorem C6_majority_winner_witness :
    exTrieC6.wfb = true ∧
    lookupA 1 (initRound exTrieC6).candidate_vote_counts = some 2 ∧
    (initRound exTrieC6).effective_total_votes / 2 < 2 ∧
    winnerLoop .EliminateAll id [] 1 (initRound exTrieC6) = some (some 1) :=
  ⟨by decide, rfl, by decide,
    (C6_majority_winner .EliminateAll id [] exTrieC6 (initRound exTrieC6)
      (by decide) ReachableRound.init 1 2 rfl (by decide)).1 0⟩

/-- C3 counterexample: with vote counts `{1 ↦ 1, 2 ↦ 1, 3 ↦ 5}` the
second-smallest distinct count is 5, so the claim's threshold admits all
three candidates (and the spec-side reading is not decisive, falling back
to `{1, 2}`); the code instead takes the second entry of the sorted count
list — the minimum 1 again — analyses only `{1, 2}` and decisively returns
`{2}`. -/
theorem C3_counterexample :
    findCondorcetRankedPairsWeakest [(1, 1), (2, 1), (3, 5)] [((1, 2), 1)] [1, 2] = [2] ∧
    findCondorcetSpecDistinct [(1, 1), (2, 1), (3, 5)] [((1, 2), 1)] [1, 2] = [1, 2] ∧
    ([2] : List Nat) ≠ [1, 2] := by
  refine ⟨by decide, by decide, by decide⟩

theorem insertionSort_get1_of_two_min (counts : List Nat) (m : Nat)
    (hmin : ∀ x ∈ counts, m ≤ x)
    (hcount : 2 ≤ counts.count m) :
    (List.insertionSort (fun a b => a ≤ b) counts).get? 1 = some m := by
  have hperm := List.perm_insertionSort (fun a b => a ≤ b) counts
  have hsorted := List.sorted_insertionSort (fun a b => a ≤ b) counts
  have hcount2 : 2 ≤ (List.insertionSort (fun a b => a ≤ b) counts).count m := by
    rw [hperm.count_eq]
    exact hcount
  have hmins : ∀ x ∈ List.insertionSort (fun a b => a ≤ b) counts, m ≤ x :=
    fun x hx => hmin x (hperm.mem_iff.mp hx)
  cases hsl : List.insertionSort (fun a b => a ≤ b) counts with
  | nil =>
      rw [hsl] at hcount2
      simp at hcount2
  | cons a rest =>
      rw [hsl] at hcount2 hmins hsorted
      rw [List.sorted_cons] at hsorted
      have hmema : m ∈ a :: rest := by
        by_contra hnm
        rw [List.count_eq_zero_of_not_mem hnm] at hcount2
        omega
      have ham : a = m := by
        rcases List.mem_cons.mp hmema with heq | hmem
        · exact heq.symm
        · exact Nat.le_antisymm (hsorted.1 m hmem) (hmins a (List.mem_cons_self _ _))
      subst ham
      rw [List.count_cons_self] at hcount2
      have hmemr : a ∈ rest := by
        by_contra hnm
        rw [List.count_eq_zero_of_not_mem hnm] at hcount2
        omega
      cases hrl : rest with
      | nil =>
          rw [hrl] at hmemr
          exact absurd hmemr (List.not_mem_nil a)
      | cons b rest2 =>
          rw [hrl] at hmemr hsorted
          have hsort2 := hsorted.2
          rw [List.sorted_cons] at hsort2
          have hbm : b = a := by
            refine Nat.le_antisymm ?_ ?_
            · rcases List.mem_cons.mp hmemr with heq | hmem
              · exact Nat.le_of_eq heq.symm
              · exact hsort2.1 a hmem
            · exact hsorted.1 b (List.mem_cons_self b rest2)
          rw [hbm]
          rfl

/-- C3 (amended): the Condorcet threshold is the second-smallest count
counted WITH multiplicity (entry 1 of the sorted count list), not the
second-smallest distinct count: whenever at least two candidates tie at
the minimum count m, the threshold equals m itself, the pairwise-graph
sink computation is applied to `{c : votes[c] ≤ m}`, and the fallback to
the minimum-count candidates applies when the graph is not decisive. -/
theorem C3_condorcet_threshold_tie (votes : List (Nat × Nat)) (pm : PairsMap)
    (lowest : List Nat) (m : Nat)
    (hmin : ∀ x ∈ votes.map Prod.snd, m ≤ x)
    (hcount : 2 ≤ (votes.map Prod.snd).count m) :
    findCondorcetRankedPairsWeakest votes pm lowest = condorcetWith votes pm lowest m := by
  have hget := insertionSort_get1_of_two_min (votes.map Prod.snd) m hmin hcount
  unfold findCondorcetRankedPairsWeakest
  simp only
  rw [show (votes.map (fun p => p.2)) = votes.map Prod.snd from rfl, hget]

/-- Witness for the amended C3: candidates 1 and 2 tie at the minimum count
1, so the threshold is 1 and the code coincides with the
minimum-threshold dispatch. -/
theorem C3_condorcet_threshold_tie_witness :
    (∀ x ∈ ([(1, 1), (2, 1), (3, 5)] : List (Nat × Nat)).map Prod.snd, 1 ≤ x) ∧
    2 ≤ (([(1, 1), (2, 1), (3, 5)] : List (Nat × Nat)).map Prod.snd).count 1 ∧
    findCondorcetRankedPairsWeakest [(1, 1), (2, 1), (3, 5)] [((1, 2), 1)] [1, 2] =
      condorcetWith [(1, 1), (2, 1), (3, 5)] [((1, 2), 1)] [1, 2] 1 :=
  ⟨by decide, by decide,
    C3_condorcet_threshold_tie [(1, 1), (2, 1), (3, 5)] [((1, 2), 1)] [1, 2] 1
      (by decide) (by decide)⟩

theorem mem_outNeighbors (g : PrefGraph) (a b : Nat) :
    b ∈ outNeighbors g a ↔ edgeRel g a b := by
  simp only [outNeighbors, List.mem_filterMap, edgeRel]
  constructor
  · rintro ⟨e, he, hfe⟩
    by_cases h1 : e.1 = a
    · rw [if_pos h1] at hfe
      cases hfe
      exact ⟨e.2.2, by rw [← h1]; exact he⟩
    · rw [if_neg h1] at hfe
      cases hfe
  · rintro ⟨w, hw⟩
    exact ⟨(a, b, w), hw, by simp⟩

theorem mem_inNeighbors (g : PrefGraph) (a b : Nat) :
    b ∈ inNeighbors g a ↔ edgeRel g b a := by
  simp only [inNeighbors, List.mem_filterMap, edgeRel]
  constructor
  · rintro ⟨e, he, hfe⟩
    by_cases h1 : e.2.1 = a
    · rw [if_pos h1] at hfe
      cases hfe
      exact ⟨e.2.2, by rw [← h1]; exact he⟩
    · rw [if_neg h1] at hfe
      cases hfe
  · rintro ⟨w, hw⟩
    exact ⟨(b, a, w), hw, by simp⟩

theorem mem_insertSet (x n : Nat) (s : List Nat) :
    x ∈ insertSet n s ↔ x ∈ s ∨ x = n := by
  unfold insertSet
  by_cases h : n ∈ s
  · rw [if_pos h]
    constructor
    · exact Or.inl
    · rintro (hx | rfl)
      · exact hx
      · exact h
  · rw [if_neg h]
    simp [List.mem_append]

theorem dfsNeighborsGen_fst_ex (rec : Nat → List Nat → List Nat → Bool × List Nat)
    (hrec : ∀ (nb : Nat) (path ex ex2 : List Nat),
      (rec nb path ex).1 = (rec nb path ex2).1) :
    ∀ (l path ex ex2 : List Nat),
    (dfsNeighborsGen rec l path ex).1 = (dfsNeighborsGen rec l path ex2).1 := by
  intro l
  induction l with
  | nil => intro path ex ex2; rfl
  | cons nb rest ih =>
      intro path ex ex2
      show (if nb ∈ path then ((true : Bool), ex) else _).1 =
        (if nb ∈ path then ((true : Bool), ex2) else _).1
      by_cases hp : nb ∈ path
      · rw [if_pos hp, if_pos hp]
      · rw [if_neg hp, if_neg hp]
        simp only
        have h1 := hrec nb (path ++ [nb]) ex ex2
        by_cases hb : (rec nb (path ++ [nb]) ex).1 = true
        · have hb2 : (rec nb (path ++ [nb]) ex2).1 = true := h1 ▸ hb
          rw [if_pos hb, if_pos hb2, h1]
        · have hb2 : ¬(rec nb (path ++ [nb]) ex2).1 = true := h1 ▸ hb
          rw [if_neg hb, if_neg hb2]
          exact ih path _ _

theorem dfsFindCycle_fst_ex (g : PrefGraph) :
    ∀ (fuel : Nat) (node : Nat) (path ex ex2 : List Nat),
    (dfsFindCycle g fuel node path ex).1 = (dfsFindCycle g fuel node path ex2).1 := by
  intro fuel
  induction fuel with
  | zero => intro node path ex ex2; rfl
  | succ fuel ih =>
      intro node path ex ex2
      exact dfsNeighborsGen_fst_ex (dfsFindCycle g fuel)
        (fun nb p e e2 => ih nb p e e2) (outNeighbors g node) path
        (insertSet node ex) (insertSet node ex2)

theorem dfsNeighborsGen_false (rec : Nat → List Nat → List Nat → Bool × List Nat) :
    ∀ (l path ex : List Nat),
    (dfsNeighborsGen rec l path ex).1 = false →
    ∀ nb ∈ l, nb ∉ path ∧ ∃ ex2 : List Nat, (rec nb (path ++ [nb]) ex2).1 = false := by
  intro l
  induction l with
  | nil => intro path ex _ nb hnb; exact absurd hnb (List.not_mem_nil nb)
  | cons nb0 rest ih =>
      intro path ex h nb hnb
      rw [show dfsNeighborsGen rec (nb0 :: rest) path ex =
        (if nb0 ∈ path then (true, ex) else
          (if (rec nb0 (path ++ [nb0]) ex).1 then rec nb0 (path ++ [nb0]) ex
           else dfsNeighborsGen rec rest path (rec nb0 (path ++ [nb0]) ex).2)) from rfl] at h
      by_cases hp : nb0 ∈ path
      · rw [if_pos hp] at h; cases h
      · rw [if_neg hp] at h
        cases hr : (rec nb0 (path ++ [nb0]) ex).1 with
        | true => rw [if_pos (by rw [hr])] at h; rw [hr] at h; cases h
        | false =>
            rw [if_neg (by rw [hr]; exact Bool.false_ne_true)] at h
            rcases List.mem_cons.mp hnb with rfl | hmem
            · exact ⟨hp, ex, hr⟩
            · exact ih path _ h nb hmem

theorem dfsFindCycle_false (g : PrefGraph) :
    ∀ (fuel : Nat) (node : Nat) (path ex : List Nat),
    (dfsFindCycle g fuel node path ex).1 = false → ¬ cycleFrom g node := by
  intro fuel
  induction fuel with
  | zero => intro node path ex h; cases h
  | succ fuel ih =>
      intro node path ex h
      rintro ⟨v, hreach, hcyc⟩
      have hnb : ∃ nb : Nat, edgeRel g node nb ∧ cycleFrom g nb := by
        rcases Relation.ReflTransGen.cases_head hreach with heq | ⟨c, hc, hcv⟩
        · subst heq
          rcases Relation.TransGen.head'_iff.mp hcyc with ⟨b, hb, hbv⟩
          exact ⟨b, hb, node, hbv, hcyc⟩
        · exact ⟨c, hc, v, hcv, hcyc⟩
      rcases hnb with ⟨nb, hedge, hcycnb⟩
      have hmem : nb ∈ outNeighbors g node := (mem_outNeighbors g node nb).mpr hedge
      have hfalse := dfsNeighborsGen_false (dfsFindCycle g fuel)
        (outNeighbors g node) path (insertSet node ex) h nb hmem
      rcases hfalse.2 with ⟨ex2, hex2⟩
      exact ih nb (path ++ [nb]) ex2 hex2 hcycnb

theorem nodup_concat (path : List Nat) (nb : Nat) (h1 : path.Nodup) (h2 : nb ∉ path) :
    (path ++ [nb]).Nodup := by
  rw [List.nodup_append]
  exact ⟨h1, List.nodup_singleton nb,
    fun a ha hb => (List.mem_singleton.mp hb ▸ h2) (List.mem_singleton.mp hb ▸ ha)⟩

theorem dfsNeighborsGen_true (rec : Nat → List Nat → List Nat → Bool × List Nat) :
    ∀ (l path ex : List Nat),
    (dfsNeighborsGen rec l path ex).1 = true →
    ∃ nb ∈ l, nb ∈ path ∨ (nb ∉ path ∧ ∃ ex2 : List Nat, (rec nb (path ++ [nb]) ex2).1 = true) := by
  intro l
  induction l with
  | nil => intro path ex h; cases h
  | cons nb0 rest ih =>
      intro path ex h
      rw [show dfsNeighborsGen rec (nb0 :: rest) path ex =
        (if nb0 ∈ path then (true, ex) else
          (if (rec nb0 (path ++ [nb0]) ex).1 then rec nb0 (path ++ [nb0]) ex
           else dfsNeighborsGen rec rest path (rec nb0 (path ++ [nb0]) ex).2)) from rfl] at h
      by_cases hp : nb0 ∈ path
      · exact ⟨nb0, List.mem_cons_self _ _, Or.inl hp⟩
      · rw [if_neg hp] at h
        cases hr : (rec nb0 (path ++ [nb0]) ex).1 with
        | true => exact ⟨nb0, List.mem_cons_self _ _, Or.inr ⟨hp, ex, hr⟩⟩
        | false =>
            rw [if_neg (by rw [hr]; exact Bool.false_ne_true)] at h
            rcases ih path _ h with ⟨nb, hnb, hcase⟩
            exact ⟨nb, List.mem_cons_of_mem _ hnb, hcase⟩

theorem dfsFindCycle_true (g : PrefGraph) (hclosed : edgesClosed g) :
    ∀ (fuel : Nat) (node : Nat) (path ex : List Nat),
    path.Nodup → (∀ x ∈ path, x ∈ g.nodes) →
    (∀ v ∈ path, Relation.ReflTransGen (edgeRel g) v node) →
    g.nodes.length + 1 ≤ fuel + path.length →
    (dfsFindCycle g fuel node path ex).1 = true →
    ∃ v : Nat, Relation.TransGen (edgeRel g) v v := by
  intro fuel
  induction fuel with
  | zero =>
      intro node path ex hnodup hsub _ hfuel _
      exfalso
      have hle : path.length ≤ g.nodes.length :=
        (List.subperm_of_subset hnodup hsub).length_le
      omega
  | succ fuel ih =>
      intro node path ex hnodup hsub hphi hfuel h
      rcases dfsNeighborsGen_true (dfsFindCycle g fuel) (outNeighbors g node) path
        (insertSet node ex) h with ⟨nb, hnbmem, hcase⟩
      have hedge : edgeRel g node nb := (mem_outNeighbors g node nb).mp hnbmem
      rcases hcase with hin | ⟨hout, ex2, htrue⟩
      · exact ⟨nb, Relation.TransGen.tail' (hphi nb hin) hedge⟩
      · have hnbnode : nb ∈ g.nodes := by
          rcases hedge with ⟨w, hw⟩
          exact (hclosed (node, nb, w) hw).2
        refine ih nb (path ++ [nb]) ex2 (nodup_concat path nb hnodup hout) ?_ ?_ ?_ htrue
        · intro x hx
          rcases List.mem_append.mp hx with h1 | h2
          · exact hsub x h1
          · rw [List.mem_singleton.mp h2]
            exact hnbnode
        · intro v hv
          rcases List.mem_append.mp hv with h1 | h2
          · exact Relation.ReflTransGen.tail (hphi v h1) hedge
          · rw [List.mem_singleton.mp h2]
        · rw [List.length_append, List.length_singleton]
          omega

theorem dfsNeighborsGen_explored (g : PrefGraph)
    (rec : Nat → List Nat → List Nat → Bool × List Nat)
    (hrec : ∀ (nb : Nat) (path ex : List Nat), ∀ x ∈ (rec nb path ex).2,
      x ∈ ex ∨ Relation.ReflTransGen (edgeRel g) nb x) :
    ∀ (l path ex : List Nat), ∀ x ∈ (dfsNeighborsGen rec l path ex).2,
    x ∈ ex ∨ ∃ nb ∈ l, Relation.ReflTransGen (edgeRel g) nb x := by
  intro l
  induction l with
  | nil => intro path ex x hx; exact Or.inl hx
  | cons nb0 rest ih =>
      intro path ex x hx
      rw [show dfsNeighborsGen rec (nb0 :: rest) path ex =
        (if nb0 ∈ path then (true, ex) else
          (if (rec nb0 (path ++ [nb0]) ex).1 then rec nb0 (path ++ [nb0]) ex
           else dfsNeighborsGen rec rest path (rec nb0 (path ++ [nb0]) ex).2)) from rfl] at hx
      by_cases hp : nb0 ∈ path
      · rw [if_pos hp] at hx
        exact Or.inl hx
      · rw [if_neg hp] at hx
        cases hr : (rec nb0 (path ++ [nb0]) ex).1 with
        | true =>
            rw [if_pos (by rw [hr])] at hx
            rcases hrec nb0 (path ++ [nb0]) ex x hx with h1 | h2
            · exact Or.inl h1
            · exact Or.inr ⟨nb0, List.mem_cons_self _ _, h2⟩
        | false =>
            rw [if_neg (by rw [hr]; exact Bool.false_ne_true)] at hx
            rcases ih path _ x hx with h1 | ⟨nb, hnb, h2⟩
            · rcases hrec nb0 (path ++ [nb0]) ex x h1 with h3 | h4
              · exact Or.inl h3
              · exact Or.inr ⟨nb0, List.mem_cons_self _ _, h4⟩
            · exact Or.inr ⟨nb, List.mem_cons_of_mem _ hnb, h2⟩

theorem dfsFindCycle_explored (g : PrefGraph) :
    ∀ (fuel : Nat) (node : Nat) (path ex : List Nat),
    ∀ x ∈ (dfsFindCycle g fuel node path ex).2,
    x ∈ ex ∨ Relation.ReflTransGen (edgeRel g) node x := by
  intro fuel
  induction fuel with
  | zero => intro node path ex x hx; exact Or.inl hx
  | succ fuel ih =>
      intro node path ex x hx
      rcases dfsNeighborsGen_explored g (dfsFindCycle g fuel)
        (fun nb p e => ih nb p e) (outNeighbors g node) path (insertSet node ex) x hx
        with h1 | ⟨nb, hnb, h2⟩
      · rcases (mem_insertSet x node ex).mp h1 with h3 | h4
        · exact Or.inl h3
        · rw [h4]
          exact Or.inr Relation.ReflTransGen.refl
      · exact Or.inr (Relation.ReflTransGen.head ((mem_outNeighbors g node nb).mp hnb) h2)

theorem insertSet_fold_mem (l : List Nat) :
    ∀ (acc : List Nat) (x : Nat),
    x ∈ l.foldl (fun s m => insertSet m s) acc ↔ x ∈ acc ∨ x ∈ l := by
  induction l with
  | nil => intro acc x; simp
  | cons m rest ih =>
      intro acc x
      rw [List.foldl_cons, ih]
      rw [mem_insertSet]
      constructor
      · rintro ((h1 | h2) | h3)
        · exact Or.inl h1
        · exact Or.inr (by rw [h2]; exact List.mem_cons_self _ _)
        · exact Or.inr (List.mem_cons_of_mem _ h3)
      · rintro (h1 | h2)
        · exact Or.inl (Or.inl h1)
        · rcases List.mem_cons.mp h2 with h3 | h4
          · exact Or.inl (Or.inr h3)
          · exact Or.inr h4

theorem cycleFrom_trans (g : PrefGraph) (a b : Nat)
    (hab : Relation.ReflTransGen (edgeRel g) a b) (h : cycleFrom g b) :
    cycleFrom g a := by
  rcases h with ⟨v, hv, hc⟩
  exact ⟨v, hab.trans hv, hc⟩

theorem acyclicLoop_false (g : PrefGraph) :
    ∀ (l allEx : List Nat), acyclicLoop g l allEx = false →
    ∃ n : Nat, (dfsFindCycle g (g.nodes.length + 1) n [] []).1 = true := by
  intro l
  induction l with
  | nil => intro allEx h; cases h
  | cons n rest ih =>
      intro allEx h
      rw [show acyclicLoop g (n :: rest) allEx =
        (if n ∈ allEx then acyclicLoop g rest allEx else
          (if (dfsFindCycle g (g.nodes.length + 1) n [] []).1 then false
           else acyclicLoop g rest
             ((dfsFindCycle g (g.nodes.length + 1) n [] []).2.foldl
               (fun s m => insertSet m s) allEx))) from rfl] at h
      by_cases hp : n ∈ allEx
      · rw [if_pos hp] at h
        exact ih allEx h
      · rw [if_neg hp] at h
        cases hr : (dfsFindCycle g (g.nodes.length + 1) n [] []).1 with
        | true => exact ⟨n, hr⟩
        | false =>
            rw [if_neg (by rw [hr]; exact Bool.false_ne_true)] at h
            exact ih _ h

theorem acyclicLoop_true (g : PrefGraph) :
    ∀ (l allEx : List Nat), acyclicLoop g l allEx = true →
    (∀ x ∈ allEx, ¬ cycleFrom g x) → ∀ m ∈ l, ¬ cycleFrom g m := by
  intro l
  induction l with
  | nil => intro allEx _ _ m hm; exact absurd hm (List.not_mem_nil m)
  | cons n rest ih =>
      intro allEx h hEx m hm
      rw [show acyclicLoop g (n :: rest) allEx =
        (if n ∈ allEx then acyclicLoop g rest allEx else
          (if (dfsFindCycle g (g.nodes.length + 1) n [] []).1 then false
           else acyclicLoop g rest
             ((dfsFindCycle g (g.nodes.length + 1) n [] []).2.foldl
               (fun s m => insertSet m s) allEx))) from rfl] at h
      by_cases hp : n ∈ allEx
      · rw [if_pos hp] at h
        rcases List.mem_cons.mp hm with heq | hmem
        · exact heq ▸ hEx n hp
        · exact ih allEx h hEx m hmem
      · rw [if_neg hp] at h
        cases hr : (dfsFindCycle g (g.nodes.length + 1) n [] []).1 with
        | true => rw [if_pos (by rw [hr])] at h; cases h
        | false =>
            rw [if_neg (by rw [hr]; exact Bool.false_ne_true)] at h
            have hncyc : ¬ cycleFrom g n := dfsFindCycle_false g _ n [] [] hr
            rcases List.mem_cons.mp hm with heq | hmem
            · exact heq ▸ hncyc
            · refine ih _ h ?_ m hmem
              intro x hx
              rcases (insertSet_fold_mem _ allEx x).mp hx with h1 | h2
              · exact hEx x h1
              · rcases dfsFindCycle_explored g _ n [] [] x h2 with h3 | h4
                · exact absurd h3 (List.not_mem_nil x)
                · intro hcx
                  exact hncyc (cycleFrom_trans g n x h4 hcx)

theorem isGraphAcyclic_iff (g : PrefGraph) (hclosed : edgesClosed g) :
    isGraphAcyclic g = true ↔ ¬∃ v : Nat, Relation.TransGen (edgeRel g) v v := by
  constructor
  · intro h
    rintro ⟨v, hv⟩
    have hvnode : v ∈ g.nodes := by
      rcases Relation.TransGen.head'_iff.mp hv with ⟨b, hb, _⟩
      rcases hb with ⟨w, hw⟩
      exact (hclosed (v, b, w) hw).1
    unfold isGraphAcyclic at h
    by_cases hne : g.nodes.isEmpty
    · rw [List.isEmpty_iff] at hne
      rw [hne] at hvnode
      exact absurd hvnode (List.not_mem_nil v)
    · rw [if_neg hne] at h
      exact acyclicLoop_true g g.nodes [] h
        (fun x hx => absurd hx (List.not_mem_nil x)) v hvnode ⟨v, Relation.ReflTransGen.refl, hv⟩
  · intro h
    cases hac : isGraphAcyclic g with
    | true => rfl
    | false =>
        exfalso
        unfold isGraphAcyclic at hac
        by_cases hne : g.nodes.isEmpty
        · rw [if_pos hne] at hac; cases hac
        · rw [if_neg hne] at hac
          rcases acyclicLoop_false g g.nodes [] hac with ⟨n, hn⟩
          exact h (dfsFindCycle_true g hclosed (g.nodes.length + 1) n [] []
            List.nodup_nil (fun x hx => absurd hx (List.not_mem_nil x))
            (fun v hv => absurd hv (List.not_mem_nil v)) (by omega) hn)

theorem mem_undirNeighbors (g : PrefGraph) (x y : Nat) :
    y ∈ undirNeighbors g x ↔ edgeRel g y x ∨ edgeRel g x y := by
  unfold undirNeighbors
  rw [List.mem_append, mem_inNeighbors, mem_outNeighbors]

theorem undirNeighbors_length (g : PrefGraph) (x : Nat) :
    (undirNeighbors g x).length ≤ 2 * g.edges.length := by
  unfold undirNeighbors
  rw [List.length_append]
  have h1 := List.length_filterMap_le
    (fun e : Nat × Nat × Nat => if e.2.1 = x then some e.1 else none) g.edges
  have h2 := List.length_filterMap_le
    (fun e : Nat × Nat × Nat => if e.1 = x then some e.2.1 else none) g.edges
  unfold inNeighbors outNeighbors
  omega

theorem unexpCount_nil (g : PrefGraph) : unexpCount g [] = g.nodes.length := by
  unfold unexpCount
  rw [List.filter_eq_self.mpr]
  intro a _
  simp

theorem filterNotMem_concat_le (nodes ex : List Nat) (n : Nat) :
    (nodes.filter (fun v => decide (v ∉ ex ++ [n]))).length ≤
      (nodes.filter (fun v => decide (v ∉ ex))).length := by
  induction nodes with
  | nil => simp
  | cons m rest ih =>
      rw [List.filter_cons, List.filter_cons]
      by_cases hm : m ∈ ex
      · have h1 : decide (m ∉ ex ++ [n]) = false := by
          simp [List.mem_append, hm]
        have h2 : decide (m ∉ ex) = false := by simp [hm]
        rw [h1, h2]
        simp only [Bool.false_eq_true, if_false]
        exact ih
      · have h2 : decide (m ∉ ex) = true := by simp [hm]
        rw [h2, if_pos rfl]
        by_cases hm2 : m ∈ ex ++ [n]
        · have h1 : decide (m ∉ ex ++ [n]) = false := by simp [hm2]
          rw [h1]
          simp only [Bool.false_eq_true, if_false, List.length_cons]
          omega
        · have h1 : decide (m ∉ ex ++ [n]) = true := by simp [hm2]
          rw [h1, if_pos rfl]
          simp only [List.length_cons]
          omega

theorem filterNotMem_concat_lt (nodes ex : List Nat) (n : Nat)
    (hn : n ∈ nodes) (hnex : n ∉ ex) :
    (nodes.filter (fun v => decide (v ∉ ex ++ [n]))).length <
      (nodes.filter (fun v => decide (v ∉ ex))).length := by
  induction nodes with
  | nil => exact absurd hn (List.not_mem_nil n)
  | cons m rest ih =>
      rw [List.filter_cons, List.filter_cons]
      by_cases hmn : m = n
      · subst hmn
        have h1 : decide (m ∉ ex ++ [m]) = false := by
          simp [List.mem_append]
        have h2 : decide (m ∉ ex) = true := by simp [hnex]
        rw [h1, h2, if_pos rfl]
        simp only [Bool.false_eq_true, if_false, List.length_cons]
        have := filterNotMem_concat_le rest ex m
        omega
      · have hmem : n ∈ rest := by
          rcases List.mem_cons.mp hn with heq | h3
          · exact absurd heq.symm hmn
          · exact h3
        have hlt := ih hmem
        by_cases hm : m ∈ ex
        · have h1 : decide (m ∉ ex ++ [n]) = false := by
            simp [List.mem_append, hm]
          have h2 : decide (m ∉ ex) = false := by simp [hm]
          rw [h1, h2]
          simp only [Bool.false_eq_true, if_false]
          exact hlt
        · have h2 : decide (m ∉ ex) = true := by simp [hm]
          have h1 : decide (m ∉ ex ++ [n]) = true := by
            simp only [List.mem_append, List.mem_singleton, decide_eq_true_eq, not_or]
            exact ⟨hm, hmn⟩
          rw [h1, h2, if_pos rfl, if_pos rfl]
          simp only [List.length_cons]
          omega

theorem unexpCount_lt (g : PrefGraph) (ex : List Nat) (n : Nat)
    (hn : n ∈ g.nodes) (hnex : n ∉ ex) :
    unexpCount g (ex ++ [n]) < unexpCount g ex :=
  filterNotMem_concat_lt g.nodes ex n hn hnex


theorem wcLoop_spec (g : PrefGraph) (hclosed : edgesClosed g) :
    ∀ (fuel : Nat) (stack ex : List Nat),
    (∀ s ∈ stack, s ∈ g.nodes) → ex.Nodup → (∀ x ∈ ex, x ∈ g.nodes) →
    (∀ x ∈ ex, ∀ y ∈ undirNeighbors g x, y ∈ ex ∨ y ∈ stack) →
    unexpCount g ex * (2 * g.edges.length + 1) + stack.length < fuel →
    (∀ x ∈ ex, x ∈ wcLoop g fuel stack ex) ∧
    (∀ s ∈ stack, s ∈ wcLoop g fuel stack ex) ∧
    (wcLoop g fuel stack ex).Nodup ∧
    (∀ x ∈ wcLoop g fuel stack ex, x ∈ g.nodes) ∧
    (∀ x ∈ wcLoop g fuel stack ex, ∀ y ∈ undirNeighbors g x,
      y ∈ wcLoop g fuel stack ex) ∧
    (∀ x ∈ wcLoop g fuel stack ex, x ∈ ex ∨
      ∃ s ∈ stack, Relation.ReflTransGen (symmEdge g) s x) := by
  intro fuel
  induction fuel with
  | zero =>
      intro stack ex _ _ _ _ hfuel
      exact absurd hfuel (by omega)
  | succ fuel ih =>
      intro stack ex hstack hexnodup hexsub hInv hfuel
      cases stack with
      | nil =>
          have hres : wcLoop g (fuel + 1) [] ex = ex := rfl
          rw [hres]
          refine ⟨fun x hx => hx, fun s hs => absurd hs (List.not_mem_nil s),
            hexnodup, hexsub, ?_, fun x hx => Or.inl hx⟩
          intro x hx y hy
          rcases hInv x hx y hy with h1 | h2
          · exact h1
          · exact absurd h2 (List.not_mem_nil y)
      | cons n rest =>
          have hn : n ∈ g.nodes := hstack n (List.mem_cons_self _ _)
          have hres : wcLoop g (fuel + 1) (n :: rest) ex =
              (if n ∈ ex then wcLoop g fuel rest ex
               else wcLoop g fuel ((undirNeighbors g n).reverse ++ rest) (ex ++ [n])) := rfl
          by_cases hne : n ∈ ex
          · rw [hres, if_pos hne]
            have hInv2 : ∀ x ∈ ex, ∀ y ∈ undirNeighbors g x, y ∈ ex ∨ y ∈ rest := by
              intro x hx y hy
              rcases hInv x hx y hy with h1 | h2
              · exact Or.inl h1
              · rcases List.mem_cons.mp h2 with heq | hm
                · exact Or.inl (heq ▸ hne)
                · exact Or.inr hm
            have hfuel2 : unexpCount g ex * (2 * g.edges.length + 1) + rest.length < fuel := by
              simp only [List.length_cons] at hfuel
              omega
            obtain ⟨ha, hb, hc, hd, he, hf⟩ :=
              ih rest ex (fun s hs => hstack s (List.mem_cons_of_mem _ hs))
                hexnodup hexsub hInv2 hfuel2
            refine ⟨ha, ?_, hc, hd, he, ?_⟩
            · intro s hs
              rcases List.mem_cons.mp hs with heq | hm
              · exact heq ▸ ha n hne
              · exact hb s hm
            · intro x hx
              rcases hf x hx with h1 | ⟨s, hs, h2⟩
              · exact Or.inl h1
              · exact Or.inr ⟨s, List.mem_cons_of_mem _ hs, h2⟩
          · rw [hres, if_neg hne]
            have hstack2 : ∀ s ∈ (undirNeighbors g n).reverse ++ rest, s ∈ g.nodes := by
              intro s hs
              rcases List.mem_append.mp hs with h1 | h2
              · rw [List.mem_reverse] at h1
                rcases (mem_undirNeighbors g n s).mp h1 with ⟨w, hw⟩ | ⟨w, hw⟩
                · exact (hclosed (s, n, w) hw).1
                · exact (hclosed (n, s, w) hw).2
              · exact hstack s (List.mem_cons_of_mem _ h2)
            have hnodup2 : (ex ++ [n]).Nodup := nodup_concat ex n hexnodup hne
            have hexsub2 : ∀ x ∈ ex ++ [n], x ∈ g.nodes := by
              intro x hx
              rcases List.mem_append.mp hx with h1 | h2
              · exact hexsub x h1
              · exact (List.mem_singleton.mp h2) ▸ hn
            have hInv2 : ∀ x ∈ ex ++ [n], ∀ y ∈ undirNeighbors g x,
                y ∈ ex ++ [n] ∨ y ∈ (undirNeighbors g n).reverse ++ rest := by
              intro x hx y hy
              rcases List.mem_append.mp hx with h1 | h2
              · rcases hInv x h1 y hy with h3 | h4
                · exact Or.inl (List.mem_append.mpr (Or.inl h3))
                · rcases List.mem_cons.mp h4 with heq | hm
                  · exact Or.inl (List.mem_append.mpr (Or.inr (heq ▸ List.mem_singleton_self n)))
                  · exact Or.inr (List.mem_append.mpr (Or.inr hm))
              · rw [List.mem_singleton.mp h2] at hy
                exact Or.inr (List.mem_append.mpr (Or.inl (List.mem_reverse.mpr hy)))
            have hfuel2 : unexpCount g (ex ++ [n]) * (2 * g.edges.length + 1) +
                ((undirNeighbors g n).reverse ++ rest).length < fuel := by
              have hu := unexpCount_lt g ex n hn hne
              have hlen : ((undirNeighbors g n).reverse ++ rest).length ≤
                  2 * g.edges.length + rest.length := by
                rw [List.length_append, List.length_reverse]
                have := undirNeighbors_length g n
                omega
              have hmul : (unexpCount g (ex ++ [n]) + 1) * (2 * g.edges.length + 1) ≤
                  unexpCount g ex * (2 * g.edges.length + 1) :=
                Nat.mul_le_mul_right _ (by omega)
              rw [Nat.succ_mul] at hmul
              simp only [List.length_cons] at hfuel
              generalize hX : unexpCount g (ex ++ [n]) * (2 * g.edges.length + 1) = X at hmul ⊢
              generalize hY : unexpCount g ex * (2 * g.edges.length + 1) = Y at hmul hfuel
              omega
            obtain ⟨ha, hb, hc, hd, he, hf⟩ :=
              ih ((undirNeighbors g n).reverse ++ rest) (ex ++ [n])
                hstack2 hnodup2 hexsub2 hInv2 hfuel2
            refine ⟨?_, ?_, hc, hd, he, ?_⟩
            · intro x hx
              exact ha x (List.mem_append.mpr (Or.inl hx))
            · intro s hs
              rcases List.mem_cons.mp hs with heq | hm
              · exact heq ▸ ha n (List.mem_append.mpr (Or.inr (List.mem_singleton_self n)))
              · exact hb s (List.mem_append.mpr (Or.inr hm))
            · intro x hx
              rcases hf x hx with h1 | ⟨s, hs, h2⟩
              · rcases List.mem_append.mp h1 with h3 | h4
                · exact Or.inl h3
                · refine Or.inr ⟨n, List.mem_cons_self _ _, ?_⟩
                  rw [List.mem_singleton.mp h4]
              · rcases List.mem_append.mp hs with h3 | h4
                · rw [List.mem_reverse] at h3
                  refine Or.inr ⟨n, List.mem_cons_self _ _, ?_⟩
                  have hsym : symmEdge g n s := by
                    rcases (mem_undirNeighbors g n s).mp h3 with h5 | h6
                    · exact Or.inr h5
                    · exact Or.inl h6
                  exact Relation.ReflTransGen.head hsym h2
                · exact Or.inr ⟨s, List.mem_cons_of_mem _ h4, h2⟩

theorem symmEdge_symm (g : PrefGraph) : Symmetric (symmEdge g) :=
  fun _ _ h => Or.symm h

theorem wcFuel_lt (g : PrefGraph) :
    unexpCount g [] * (2 * g.edges.length + 1) + 1 < wcFuel g := by
  rw [unexpCount_nil]
  unfold wcFuel
  have h1 : g.nodes.length * (2 * g.edges.length + 1) ≤
      g.nodes.length * (2 * g.edges.length + 2) :=
    Nat.mul_le_mul_left _ (by omega)
  have h2 : (g.nodes.length + 1) * (2 * g.edges.length + 2) =
      g.nodes.length * (2 * g.edges.length + 2) + (2 * g.edges.length + 2) :=
    Nat.succ_mul _ _
  generalize hX : g.nodes.length * (2 * g.edges.length + 1) = X at h1 ⊢
  generalize hY : g.nodes.length * (2 * g.edges.length + 2) = Y at h1 h2
  omega

theorem isGraphWeaklyConnected_iff (g : PrefGraph) (hclosed : edgesClosed g)
    (hnodesnodup : g.nodes.Nodup) :
    isGraphWeaklyConnected g = true ↔
      ∀ u ∈ g.nodes, ∀ v ∈ g.nodes, Relation.ReflTransGen (symmEdge g) u v := by
  cases hn : g.nodes with
  | nil =>
      constructor
      · intro _ u hu
        exact absurd hu (List.not_mem_nil u)
      · intro _
        unfold isGraphWeaklyConnected
        rw [hn]
  | cons n0 ns =>
      rw [← hn]
      have hn0 : n0 ∈ g.nodes := by rw [hn]; exact List.mem_cons_self _ _
      have hwc : isGraphWeaklyConnected g =
          decide ((wcLoop g (wcFuel g) [n0] []).length = (n0 :: ns).length) := by
        unfold isGraphWeaklyConnected
        rw [hn]
      have hfuel : unexpCount g [] * (2 * g.edges.length + 1) +
          ([n0] : List Nat).length < wcFuel g := by
        have := wcFuel_lt g
        simp only [List.length_singleton]
        omega
      obtain ⟨ha, hb, hc, hd, he, hf⟩ := wcLoop_spec g hclosed (wcFuel g) [n0] []
        (by intro s hs; rw [List.mem_singleton.mp hs]; exact hn0)
        List.nodup_nil (fun x hx => absurd hx (List.not_mem_nil x))
        (fun x hx => absurd hx (List.not_mem_nil x)) hfuel
      have hreachF : ∀ x ∈ wcLoop g (wcFuel g) [n0] [],
          Relation.ReflTransGen (symmEdge g) n0 x := by
        intro x hx
        rcases hf x hx with h1 | ⟨s, hs, h2⟩
        · exact absurd h1 (List.not_mem_nil x)
        · rw [List.mem_singleton.mp hs] at h2
          exact h2
      have hcompl : ∀ x : Nat, Relation.ReflTransGen (symmEdge g) n0 x →
          x ∈ wcLoop g (wcFuel g) [n0] [] := by
        intro x hx
        induction hx with
        | refl => exact hb n0 (List.mem_singleton_self n0)
        | tail hab hbc ih =>
            refine he _ ih _ ?_
            rw [mem_undirNeighbors]
            exact Or.symm hbc
      have hlennodes : (n0 :: ns).length = g.nodes.length := by rw [hn]
      constructor
      · intro h u hu v hv
        rw [hwc, decide_eq_true_eq] at h
        have hperm : (wcLoop g (wcFuel g) [n0] []).Perm g.nodes :=
          (List.subperm_of_subset hc hd).perm_of_length_le (by omega)
        have hmemF : ∀ w ∈ g.nodes, w ∈ wcLoop g (wcFuel g) [n0] [] :=
          fun w hw => hperm.mem_iff.mpr hw
        have hru := hreachF u (hmemF u hu)
        have hrv := hreachF v (hmemF v hv)
        exact (Relation.ReflTransGen.symmetric (symmEdge_symm g) hru).trans hrv
      · intro h
        rw [hwc, decide_eq_true_eq]
        have hsubF : ∀ w ∈ g.nodes, w ∈ wcLoop g (wcFuel g) [n0] [] :=
          fun w hw => hcompl w (h n0 hn0 w hw)
        have h1 : (wcLoop g (wcFuel g) [n0] []).length ≤ g.nodes.length :=
          (List.subperm_of_subset hc hd).length_le
        have h2 : g.nodes.length ≤ (wcLoop g (wcFuel g) [n0] []).length :=
          (List.subperm_of_subset hnodesnodup hsubF).length_le
        omega

theorem foldl_addNodeG_mem (cands : List Nat) :
    ∀ (acc : List Nat) (x : Nat),
      x ∈ cands.foldl addNodeG acc ↔ x ∈ acc ∨ x ∈ cands := by
  induction cands with
  | nil =>
      intro acc x
      simp
  | cons c cs ih =>
      intro acc x
      rw [List.foldl_cons, ih]
      unfold addNodeG
      by_cases hc : c ∈ acc
      · rw [if_pos hc]
        simp only [List.mem_cons]
        constructor
        · tauto
        · rintro (h | rfl | h) <;> tauto
      · rw [if_neg hc]
        simp only [List.mem_append, List.mem_singleton, List.mem_cons]
        tauto

theorem addNodeG_nodup (ns : List Nat) (c : Nat) (h : ns.Nodup) :
    (addNodeG ns c).Nodup := by
  unfold addNodeG
  by_cases hc : c ∈ ns
  · rw [if_pos hc]
    exact h
  · rw [if_neg hc]
    rw [List.nodup_append]
    refine ⟨h, List.nodup_singleton c, ?_⟩
    intro a ha hb
    rw [List.mem_singleton] at hb
    rw [hb] at ha
    exact hc ha

theorem foldl_addNodeG_nodup (cands : List Nat) :
    ∀ acc : List Nat, acc.Nodup → (cands.foldl addNodeG acc).Nodup := by
  induction cands with
  | nil =>
      intro acc h
      exact h
  | cons c cs ih =>
      intro acc h
      exact ih _ (addNodeG_nodup acc c h)

theorem foldl_addNodeG_eq (cands : List Nat) :
    ∀ acc : List Nat, cands.Nodup → (∀ c ∈ cands, c ∉ acc) →
      cands.foldl addNodeG acc = acc ++ cands := by
  induction cands with
  | nil =>
      intro acc _ _
      simp
  | cons c cs ih =>
      intro acc hnd hdisj
      have hc : c ∉ acc := hdisj c (List.mem_cons_self _ _)
      have h1 : addNodeG acc c = acc ++ [c] := by
        unfold addNodeG
        rw [if_neg hc]
      have h2 : cs.foldl addNodeG (acc ++ [c]) = (acc ++ [c]) ++ cs := by
        refine ih (acc ++ [c]) (List.nodup_cons.mp hnd).2 ?_
        intro d hd hmem
        rcases List.mem_append.mp hmem with hda | hdc
        · exact hdisj d (List.mem_cons_of_mem _ hd) hda
        · rw [List.mem_singleton] at hdc
          rw [hdc] at hd
          exact (List.nodup_cons.mp hnd).1 hd
      rw [List.foldl_cons, h1, h2, List.append_assoc, List.singleton_append]

theorem mkGraph_nodes_mem (cands : List Nat) (pm : PairsMap) (x : Nat) :
    x ∈ (mkGraph cands pm).nodes ↔ x ∈ cands := by
  show x ∈ cands.foldl addNodeG [] ↔ x ∈ cands
  rw [foldl_addNodeG_mem]
  simp

theorem mkGraph_nodes_nodup (cands : List Nat) (pm : PairsMap) :
    (mkGraph cands pm).nodes.Nodup :=
  foldl_addNodeG_nodup cands [] List.nodup_nil

theorem mkGraph_nodes_eq (cands : List Nat) (pm : PairsMap) (hnd : cands.Nodup) :
    (mkGraph cands pm).nodes = cands := by
  show cands.foldl addNodeG [] = cands
  rw [foldl_addNodeG_eq cands [] hnd (fun c _ hc => List.not_mem_nil c hc),
    List.nil_append]

theorem hasEdge_iff (es : List (Nat × Nat × Nat)) (a b : Nat) :
    hasEdge es a b = true ↔ ∃ w : Nat, (a, b, w) ∈ es := by
  unfold hasEdge
  rw [List.any_eq_true]
  constructor
  · rintro ⟨e, he, hpe⟩
    obtain ⟨e1, e2, e3⟩ := e
    rw [Bool.and_eq_true, decide_eq_true_eq, decide_eq_true_eq] at hpe
    have h1 : e1 = a := hpe.1
    have h2 : e2 = b := hpe.2
    subst h1
    subst h2
    exact ⟨e3, he⟩
  · rintro ⟨w, hw⟩
    refine ⟨(a, b, w), hw, ?_⟩
    simp

theorem mkGraphStep_pair (pm : PairsMap) (es : List (Nat × Nat × Nat))
    (a b : Nat) :
    mkGraphStep pm es (a, b) =
      if a = b then es
      else
        if pmGet pm (b, a) < pmGet pm (a, b) then
          if hasEdge es a b then es
          else es ++ [(a, b, pmGet pm (a, b) - pmGet pm (b, a))]
        else es := rfl

theorem mkGraphStep_sound (pm : PairsMap) (cands : List Nat) :
    ∀ (l : List (Nat × Nat)) (acc : List (Nat × Nat × Nat)),
      (∀ p ∈ l, p.1 ∈ cands ∧ p.2 ∈ cands) →
      (∀ e ∈ acc, e.1 ∈ cands ∧ e.2.1 ∈ cands ∧
        pmGet pm (e.2.1, e.1) < pmGet pm (e.1, e.2.1)) →
      ∀ e ∈ l.foldl (mkGraphStep pm) acc,
        e.1 ∈ cands ∧ e.2.1 ∈ cands ∧
          pmGet pm (e.2.1, e.1) < pmGet pm (e.1, e.2.1) := by
  intro l
  induction l with
  | nil =>
      intro acc _ hacc e he
      exact hacc e he
  | cons p ps ih =>
      intro acc hl hacc e he
      rw [List.foldl_cons] at he
      refine ih _ (fun q hq => hl q (List.mem_cons_of_mem _ hq)) ?_ e he
      intro f hf
      obtain ⟨p1, p2⟩ := p
      rw [mkGraphStep_pair] at hf
      by_cases h1 : p1 = p2
      · rw [if_pos h1] at hf
        exact hacc f hf
      · rw [if_neg h1] at hf
        by_cases h2 : pmGet pm (p2, p1) < pmGet pm (p1, p2)
        · rw [if_pos h2] at hf
          by_cases h3 : hasEdge acc p1 p2 = true
          · rw [if_pos h3] at hf
            exact hacc f hf
          · rw [if_neg h3] at hf
            rcases List.mem_append.mp hf with hfa | hfb
            · exact hacc f hfa
            · rw [List.mem_singleton] at hfb
              subst hfb
              have hp := hl (p1, p2) (List.mem_cons_self _ _)
              exact ⟨hp.1, hp.2, h2⟩
        · rw [if_neg h2] at hf
          exact hacc f hf

theorem hasEdge_append_left (es es2 : List (Nat × Nat × Nat)) (a b : Nat)
    (h : hasEdge es a b = true) : hasEdge (es ++ es2) a b = true := by
  unfold hasEdge at h ⊢
  rw [List.any_eq_true] at h ⊢
  rcases h with ⟨e, he, hp⟩
  exact ⟨e, List.mem_append_left _ he, hp⟩

theorem mkGraphStep_mono (pm : PairsMap) :
    ∀ (l : List (Nat × Nat)) (acc : List (Nat × Nat × Nat)) (a b : Nat),
      hasEdge acc a b = true →
      hasEdge (l.foldl (mkGraphStep pm) acc) a b = true := by
  intro l
  induction l with
  | nil =>
      intro acc a b h
      exact h
  | cons p ps ih =>
      intro acc a b h
      rw [List.foldl_cons]
      refine ih _ a b ?_
      obtain ⟨p1, p2⟩ := p
      rw [mkGraphStep_pair]
      by_cases h1 : p1 = p2
      · rw [if_pos h1]
        exact h
      · rw [if_neg h1]
        by_cases h2 : pmGet pm (p2, p1) < pmGet pm (p1, p2)
        · rw [if_pos h2]
          by_cases h3 : hasEdge acc p1 p2 = true
          · rw [if_pos h3]
            exact h
          · rw [if_neg h3]
            exact hasEdge_append_left _ _ _ _ h
        · rw [if_neg h2]
          exact h

theorem mkGraphStep_complete (pm : PairsMap) (a b : Nat)
    (hlt : pmGet pm (b, a) < pmGet pm (a, b)) :
    ∀ (l : List (Nat × Nat)) (acc : List (Nat × Nat × Nat)),
      (a, b) ∈ l → hasEdge (l.foldl (mkGraphStep pm) acc) a b = true := by
  intro l
  induction l with
  | nil =>
      intro acc h
      exact absurd h (List.not_mem_nil _)
  | cons p ps ih =>
      intro acc hmem
      rw [List.foldl_cons]
      rcases List.mem_cons.mp hmem with heq | hps
      · rw [← heq, mkGraphStep_pair]
        have hne : ¬(a = b) := by
          intro h
          rw [h] at hlt
          exact lt_irrefl _ hlt
        rw [if_neg hne, if_pos hlt]
        by_cases h3 : hasEdge acc a b = true
        · rw [if_pos h3]
          exact mkGraphStep_mono pm ps acc a b h3
        · rw [if_neg h3]
          refine mkGraphStep_mono pm ps _ a b ?_
          rw [hasEdge_iff]
          exact ⟨pmGet pm (a, b) - pmGet pm (b, a), List.mem_append_right _
            (List.mem_singleton_self _)⟩
      · exact ih _ hps

theorem mem_prefPairs (cands : List Nat) (a b : Nat) :
    (a, b) ∈ prefPairs cands ↔ a ∈ cands ∧ b ∈ cands := by
  unfold prefPairs
  rw [List.mem_flatMap]
  constructor
  · rintro ⟨x, hx, hmem⟩
    rw [List.mem_map] at hmem
    rcases hmem with ⟨y, hy, heq⟩
    have h1 : y = b := congrArg Prod.snd heq
    have h2 : x = a := congrArg Prod.fst heq
    subst h1
    subst h2
    exact ⟨hx, hy⟩
  · rintro ⟨ha, hb⟩
    refine ⟨a, ha, ?_⟩
    rw [List.mem_map]
    exact ⟨b, hb, rfl⟩

theorem mkGraph_edge_iff (cands : List Nat) (pm : PairsMap) (a b : Nat) :
    edgeRel (mkGraph cands pm) a b ↔
      a ∈ cands ∧ b ∈ cands ∧ pmGet pm (b, a) < pmGet pm (a, b) := by
  constructor
  · rintro ⟨w, hw⟩
    have hsound := mkGraphStep_sound pm cands (prefPairs cands) []
      (fun p hp => (mem_prefPairs cands p.1 p.2).mp hp)
      (fun e he => absurd he (List.not_mem_nil e))
      (a, b, w) hw
    exact hsound
  · rintro ⟨ha, hb, hlt⟩
    have hc := mkGraphStep_complete pm a b hlt (prefPairs cands) []
      ((mem_prefPairs cands a b).mpr ⟨ha, hb⟩)
    rw [hasEdge_iff] at hc
    exact hc

theorem mkGraph_edgesClosed (cands : List Nat) (pm : PairsMap) :
    edgesClosed (mkGraph cands pm) := by
  intro e he
  have hs := mkGraphStep_sound pm cands (prefPairs cands) []
    (fun p hp => (mem_prefPairs cands p.1 p.2).mp hp)
    (fun f hf => absurd hf (List.not_mem_nil f)) e he
  exact ⟨(mkGraph_nodes_mem cands pm e.1).mpr hs.1,
    (mkGraph_nodes_mem cands pm e.2.1).mpr hs.2.1⟩

theorem outNeighbors_isEmpty_iff (g : PrefGraph) (n : Nat) :
    (outNeighbors g n).isEmpty = true ↔ ∀ b : Nat, ¬ edgeRel g n b := by
  rw [List.isEmpty_iff]
  constructor
  · intro h b hb
    rw [← mem_outNeighbors] at hb
    rw [h] at hb
    exact List.not_mem_nil b hb
  · intro h
    cases hout : outNeighbors g n with
    | nil => rfl
    | cons x xs =>
        exfalso
        have hx : x ∈ outNeighbors g n := by
          rw [hout]
          exact List.mem_cons_self _ _
        exact h x ((mem_outNeighbors g n x).mp hx)

/-- C9: for every candidate subset (as a duplicate-free list) and pairwise
table, `find_ranked_pairs_weakest` builds the directed net-preference graph
on the candidates — an edge `a -> b` exists iff the net preference
`table[(a,b)] - table[(b,a)]` is strictly positive — and returns the decisive
flag `true` exactly when that graph has no directed cycle and is weakly
connected; when the flag is `false` the candidate list is returned unchanged,
and when it is `true` the result is exactly the set of sink nodes (zero
outgoing edges). -/
theorem C9_ranked_pairs_analyzer (cands : List Nat) (pm : PairsMap)
    (hnd : cands.Nodup) :
    (∀ a b : Nat, edgeRel (mkGraph cands pm) a b ↔
        a ∈ cands ∧ b ∈ cands ∧ pmGet pm (b, a) < pmGet pm (a, b)) ∧
    (∀ n : Nat, (outNeighbors (mkGraph cands pm) n).isEmpty = true ↔
        ∀ b : Nat, ¬ edgeRel (mkGraph cands pm) n b) ∧
    ((findRankedPairsWeakest cands pm).2 = true ↔
        ((¬ ∃ v : Nat, Relation.TransGen (edgeRel (mkGraph cands pm)) v v) ∧
          ∀ u ∈ cands, ∀ v ∈ cands,
            Relation.ReflTransGen (symmEdge (mkGraph cands pm)) u v)) ∧
    ((findRankedPairsWeakest cands pm).2 = false →
        (findRankedPairsWeakest cands pm).1 = cands) ∧
    ((findRankedPairsWeakest cands pm).2 = true →
        (findRankedPairsWeakest cands pm).1 =
          cands.filter (fun n => (outNeighbors (mkGraph cands pm) n).isEmpty)) := by
  have hclosed := mkGraph_edgesClosed cands pm
  have hnodes := mkGraph_nodes_eq cands pm hnd
  have hA := isGraphAcyclic_iff (mkGraph cands pm) hclosed
  have hW := isGraphWeaklyConnected_iff (mkGraph cands pm) hclosed
    (mkGraph_nodes_nodup cands pm)
  rw [hnodes] at hW
  by_cases hb : (isGraphAcyclic (mkGraph cands pm) &&
      isGraphWeaklyConnected (mkGraph cands pm)) = true
  · have hr : findRankedPairsWeakest cands pm =
        ((mkGraph cands pm).nodes.filter
          (fun n => (outNeighbors (mkGraph cands pm) n).isEmpty), true) := by
      show (if !(isGraphAcyclic (mkGraph cands pm) &&
          isGraphWeaklyConnected (mkGraph cands pm)) then (cands, false)
        else ((mkGraph cands pm).nodes.filter
          (fun n => (outNeighbors (mkGraph cands pm) n).isEmpty), true)) = _
      rw [hb, Bool.not_true, if_neg Bool.false_ne_true]
    refine ⟨fun a b => mkGraph_edge_iff cands pm a b,
      fun n => outNeighbors_isEmpty_iff _ n, ?_, ?_, ?_⟩
    · rw [hr]
      constructor
      · intro _
        rw [Bool.and_eq_true] at hb
        exact ⟨hA.mp hb.1, hW.mp hb.2⟩
      · intro _
        rfl
    · rw [hr]
      intro hfalse
      simp at hfalse
    · rw [hr]
      intro _
      show (mkGraph cands pm).nodes.filter
          (fun n => (outNeighbors (mkGraph cands pm) n).isEmpty) = _
      rw [hnodes]
  · have hb2 : (isGraphAcyclic (mkGraph cands pm) &&
        isGraphWeaklyConnected (mkGraph cands pm)) = false := by
      cases hcase : (isGraphAcyclic (mkGraph cands pm) &&
          isGraphWeaklyConnected (mkGraph cands pm)) with
      | false => rfl
      | true => exact absurd hcase hb
    have hr : findRankedPairsWeakest cands pm = (cands, false) := by
      show (if !(isGraphAcyclic (mkGraph cands pm) &&
          isGraphWeaklyConnected (mkGraph cands pm)) then (cands, false)
        else ((mkGraph cands pm).nodes.filter
          (fun n => (outNeighbors (mkGraph cands pm) n).isEmpty), true)) = _
      rw [hb2, Bool.not_false, if_pos rfl]
    refine ⟨fun a b => mkGraph_edge_iff cands pm a b,
      fun n => outNeighbors_isEmpty_iff _ n, ?_, ?_, ?_⟩
    · rw [hr]
      constructor
      · intro htrue
        simp at htrue
      · rintro ⟨hac, hwc⟩
        exfalso
        apply hb
        rw [Bool.and_eq_true]
        exact ⟨hA.mpr hac, hW.mpr hwc⟩
    · intro _
      rw [hr]
    · rw [hr]
      intro htrue
      simp at htrue

theorem C9_ranked_pairs_analyzer_witness :
    ([1, 2] : List Nat).Nodup ∧
      ((findRankedPairsWeakest [1, 2] [((1, 2), 3)]).2 = false →
        (findRankedPairsWeakest [1, 2] [((1, 2), 3)]).1 = [1, 2]) :=
  ⟨by decide,
    (C9_ranked_pairs_analyzer [1, 2] [((1, 2), 3)] (by decide)).2.2.2.1⟩
